import Mathlib

/-!
# Chess_Bot (V-Cpp/ChessBot): material balance, board mirroring, move engine, `Board`

A shallow embedding of the array-based helpers of `chess_evaluation.cpp`, of the
constants of `board.h` and of the `Board` class of `board.cpp`.

* A board (`std::vector<char>`) is a `List Char`, one character per square,
  `' '` for an empty square.
* A square index (`int`) is an `Int`; the offsets of `board.h` are negative as
  often as positive, and `is_within_board` tests `index >= 0`.
* `isupper` returns an `int`, nonzero exactly on `'A'..'Z'`.  Where the code uses it as a
  truth value or compares two of its results it is the Boolean `isupper`; where the code
  compares it with a `bool` (`is_square_attacked`, `count_legal_moves`) it is
  `isupper_int upper`, `upper` being the nonzero value of the C library in use (1 or 256,
  say).  `toupper` and `tolower` act on the ASCII letters only (the "C" locale).
* C `int` sums are unbounded `Int`s: on a board of 64 squares no sum of the
  functions below exceeds a few hundred.
* A read outside the vector is undefined in C++; `sqAt` gives `' '` there.  On a
  board of 64 squares every read of `generate_moves` at a square `0..63` is inside
  the vector.
* The squares of a `Board` (`std::array<Piece, 64>`) are a `List Piece`; a method that
  writes them takes the squares before the call and returns the squares after it.
* A `double` is a rational number where the code only compares and divides it; `size_t`
  arithmetic is arithmetic modulo `2 ^ 64`.
-/

namespace ChessBot

/-! ## Constants of `board.h` -/

def PAWN_VALUE : Int := 1
def KNIGHT_VALUE : Int := 3
def BISHOP_VALUE : Int := 3
def ROOK_VALUE : Int := 5
def QUEEN_VALUE : Int := 9

def BOARD_SIZE : Int := 8
def KNIGHT_MOVES : List Int := [15, 17, -15, -17, 10, -10, 6, -6]
def KING_MOVES : List Int := [1, -1, 8, -8, 9, -9, 7, -7]
def ROOK_MOVES : List Int := [1, -1, 8, -8]
def BISHOP_MOVES : List Int := [9, -9, 7, -7]
def QUEEN_MOVES : List Int := [1, -1, 8, -8, 9, -9, 7, -7]

/-! ## Character tests of `<cctype>` -/

/-- The test `isupper(c)` as a truth value, `isupper(c) != 0`: true exactly on `'A'..'Z'`. -/
def isupper (c : Char) : Bool := c.isUpper

/-- The value of `isupper(c)` as the `int` it is: `upper` on `'A'..'Z'` and 0 elsewhere,
`upper` being the nonzero value the C library returns. -/
def isupper_int (upper : Int) (c : Char) : Int := if c.isUpper then upper else 0

/-- The promotion of a `bool` to `int` in a comparison with an `int`. -/
def bool_int (b : Bool) : Int := if b then 1 else 0

/-- The conversion `toupper(c)`: `'a'..'z'` to upper case, anything else unchanged. -/
def toupper (c : Char) : Char := c.toUpper

/-- The conversion `tolower(c)`: `'A'..'Z'` to lower case, anything else unchanged. -/
def tolower (c : Char) : Char := c.toLower

/-! ## Material balance -/

/-- The `switch` of `piece_value_for_material_balance` (`board.h`, lines 26-40). -/
def piece_value_for_material_balance (piece : Char) : Int :=
  if piece = 'P' then PAWN_VALUE
  else if piece = 'N' then KNIGHT_VALUE
  else if piece = 'B' then BISHOP_VALUE
  else if piece = 'R' then ROOK_VALUE
  else if piece = 'Q' then QUEEN_VALUE
  else if piece = 'p' then PAWN_VALUE
  else if piece = 'n' then KNIGHT_VALUE
  else if piece = 'b' then BISHOP_VALUE
  else if piece = 'r' then ROOK_VALUE
  else if piece = 'q' then QUEEN_VALUE
  else 0

/-- One iteration of the loop of `evaluate_material_balance`: the pair is
`(white_material, black_material)`. -/
def material_step (acc : Int × Int) (piece : Char) : Int × Int :=
  if piece ≠ ' ' then
    if isupper piece then (acc.1 + piece_value_for_material_balance piece, acc.2)
    else (acc.1, acc.2 + piece_value_for_material_balance piece)
  else acc

/-- The function `evaluate_material_balance` (`chess_evaluation.cpp`, lines 51-70): the
loop over the squares in index order, then `white_material - black_material`. -/
def evaluate_material_balance (board : List Char) : Int :=
  let totals := board.foldl material_step (0, 0)
  totals.1 - totals.2

/-- The spec's piece values: pawn 1, knight 3, bishop 3, rook 5, queen 9, and 0 for the
king and for any other character. -/
def spec_piece_value (c : Char) : Int :=
  if c = 'P' ∨ c = 'p' then 1
  else if c = 'N' ∨ c = 'n' then 3
  else if c = 'B' ∨ c = 'b' then 3
  else if c = 'R' ∨ c = 'r' then 5
  else if c = 'Q' ∨ c = 'q' then 9
  else 0

/-- The spec's material balance: the values of White's pieces (the uppercase letters)
summed, minus the values of Black's pieces (the lowercase letters) summed. -/
def spec_material_balance (board : List Char) : Int :=
  ((board.filter fun c => c.isUpper).map spec_piece_value).sum
    - ((board.filter fun c => c.isLower).map spec_piece_value).sum

/-- What one square adds to `white_material`. -/
def white_value (c : Char) : Int :=
  if c ≠ ' ' ∧ isupper c = true then piece_value_for_material_balance c else 0

/-- What one square adds to `black_material`. -/
def black_value (c : Char) : Int :=
  if c ≠ ' ' ∧ isupper c = false then piece_value_for_material_balance c else 0

/-- The letters on which `isupper` is true. -/
def upperLetters : List Char :=
  ['A', 'B', 'C', 'D', 'E', 'F', 'G', 'H', 'I', 'J', 'K', 'L', 'M', 'N', 'O', 'P', 'Q', 'R',
    'S', 'T', 'U', 'V', 'W', 'X', 'Y', 'Z']

/-- The letters that `toupper` changes. -/
def lowerLetters : List Char :=
  ['a', 'b', 'c', 'd', 'e', 'f', 'g', 'h', 'i', 'j', 'k', 'l', 'm', 'n', 'o', 'p', 'q', 'r',
    's', 't', 'u', 'v', 'w', 'x', 'y', 'z']

/-- The standard starting position `rnbqkbnr/pppppppp/8/8/8/8/PPPPPPPP/RNBQKBNR`,
row 0 first. -/
def startBoard : List Char :=
  ['r', 'n', 'b', 'q', 'k', 'b', 'n', 'r'] ++ List.replicate 8 'p'
    ++ List.replicate 32 ' '
    ++ List.replicate 8 'P' ++ ['R', 'N', 'B', 'Q', 'K', 'B', 'N', 'R']

/-! ## Mirroring -/

/-- The character `mirror_board` writes for the character `piece` it reads. -/
def mirror_piece (piece : Char) : Char :=
  if piece ≠ ' ' then
    if isupper piece then tolower piece else toupper piece
  else ' '

/-- The function `mirror_board` (`chess_evaluation.cpp`, lines 293-311): a vector of
`board.size()` zero characters, then for `i = 0, 1, ...` the write
`mirrored_board[board.size() - 1 - i] = ...`. -/
def mirror_board (board : List Char) : List Char :=
  (List.range board.length).foldl
    (fun mirrored_board i =>
      mirrored_board.set (board.length - 1 - i) (mirror_piece (board.getD i ' ')))
    (List.replicate board.length (Char.ofNat 0))

/-! ## Move generation -/

/-- The one-argument `is_within_board` (`chess_evaluation.cpp`, lines 323-326). -/
def is_within_board (index : Int) : Bool :=
  decide (0 ≤ index) && decide (index < BOARD_SIZE * BOARD_SIZE)

/-- The read `board[index]`. -/
def sqAt (board : List Char) (index : Int) : Char :=
  match index with
  | Int.ofNat n => board.getD n ' '
  | Int.negSucc _ => ' '

/-- The loop of the knight and king branches of `generate_moves`: for each offset, the
square `square + move` is pushed when it is within the board and is empty or holds a
character of the other case. -/
def step_moves (board : List Char) (piece : Char) (square : Int) (moves : List Int) :
    List Int :=
  (moves.map fun move => square + move).filter fun new_square =>
    is_within_board new_square
      && (sqAt board new_square == ' ' || isupper (sqAt board new_square) != isupper piece)

/-- The inner `while` of the rook, bishop and queen branches together with the `if` after
it, for one offset `move`, entered with `new_square`.  The first argument bounds the
number of tests of the loop condition; `generate_moves` passes 64. -/
def slide (board : List Char) (piece : Char) (move : Int) : Nat → Int → List Int
  | 0, _ => []
  | fuel + 1, new_square =>
    if is_within_board new_square && sqAt board new_square == ' ' then
      new_square :: slide board piece move fuel (new_square + move)
    else if is_within_board new_square
        && isupper (sqAt board new_square) != isupper piece then
      [new_square]
    else []

/-- The outer loop of the rook, bishop and queen branches of `generate_moves`. -/
def slide_moves (board : List Char) (piece : Char) (square : Int) (moves : List Int) :
    List Int :=
  moves.flatMap fun move => slide board piece move 64 (square + move)

/-- The pawn branch of `generate_moves` (`chess_evaluation.cpp`, lines 387-412). -/
def pawn_moves (board : List Char) (piece : Char) (square : Int) : List Int :=
  let row := Int.tdiv square BOARD_SIZE
  let direction : Int := if isupper piece then -1 else 1
  let start_row : Int := if isupper piece then 6 else 1
  let move_one := square + direction * BOARD_SIZE
  let move_two := square + direction * 2 * BOARD_SIZE
  let capture_left := square + direction * (BOARD_SIZE - 1)
  let capture_right := square + direction * (BOARD_SIZE + 1)
  (if is_within_board move_one && sqAt board move_one == ' ' then
      move_one :: (if row == start_row && sqAt board move_two == ' ' then [move_two] else [])
    else [])
  ++ (if is_within_board capture_left && sqAt board capture_left != ' '
        && isupper (sqAt board capture_left) != isupper piece then [capture_left] else [])
  ++ (if is_within_board capture_right && sqAt board capture_right != ' '
        && isupper (sqAt board capture_right) != isupper piece then [capture_right] else [])

/-- The function `generate_moves` (`chess_evaluation.cpp`, lines 329-415). -/
def generate_moves (board : List Char) (square : Int) : List Int :=
  let piece := sqAt board square
  if toupper piece = 'N' then step_moves board piece square KNIGHT_MOVES
  else if toupper piece = 'K' then step_moves board piece square KING_MOVES
  else if toupper piece = 'R' then slide_moves board piece square ROOK_MOVES
  else if toupper piece = 'B' then slide_moves board piece square BISHOP_MOVES
  else if toupper piece = 'Q' then slide_moves board piece square QUEEN_MOVES
  else if toupper piece = 'P' then pawn_moves board piece square
  else []

/-! ## Legality -/

/-- The function `simulate_move` (`chess_evaluation.cpp`, lines 418-423). -/
def simulate_move (board : List Char) (from_square to_square : Int) : List Char :=
  let new_board := board
  let new_board := new_board.set to_square.toNat (sqAt new_board from_square)
  new_board.set from_square.toNat ' '

/-- The loop of `find_king`, entered at index `i` with the squares from `i` on. -/
def find_king_loop (king : Char) : List Char → Int → Int
  | [], _ => -1
  | c :: rest, i => if c = king then i else find_king_loop king rest (i + 1)

/-- The function `find_king` (`chess_evaluation.cpp`, lines 426-434). -/
def find_king (board : List Char) (color : Bool) : Int :=
  find_king_loop (if color then 'K' else 'k') board 0

/-- The function `is_square_attacked` (`chess_evaluation.cpp`, lines 437-448): the squares
inspected are those with `piece != ' ' && isupper(piece) != color`, a comparison of the
`int` that `isupper` returns with the `bool` promoted to `int`. -/
def is_square_attacked (upper : Int) (board : List Char) (square : Int) (color : Bool) :
    Bool :=
  (List.range board.length).any fun i =>
    let piece := board.getD i ' '
    piece != ' ' && isupper_int upper piece != bool_int color
      && (generate_moves board (Int.ofNat i)).contains square

/-- The function `is_legal_move` (`chess_evaluation.cpp`, lines 451-458). -/
def is_legal_move (upper : Int) (board : List Char) (from_square to_square : Int)
    (color : Bool) : Bool :=
  let new_board := simulate_move board from_square to_square
  let king_pos := find_king new_board color
  if king_pos == -1 || is_square_attacked upper new_board king_pos (!color) then false
  else true

/-- The function `count_legal_moves` (`chess_evaluation.cpp`, lines 461-475): the squares
counted are those with `piece != ' ' && (isupper(piece) == color)`, again a comparison of
an `int` with a `bool`. -/
def count_legal_moves (upper : Int) (board : List Char) (color : Bool) : Int :=
  (List.range board.length).foldl
    (fun legal_moves_count i =>
      let piece := board.getD i ' '
      if piece != ' ' && isupper_int upper piece == bool_int color then
        (generate_moves board (Int.ofNat i)).foldl
          (fun count move =>
            if is_legal_move upper board (Int.ofNat i) move color then count + 1 else count)
          legal_moves_count
      else legal_moves_count)
    0

/-! ## Vocabulary of the properties -/

/-- The row of a square, `index / 8`. -/
def rowOf (index : Int) : Int := index / 8

/-- The column of a square, `index % 8`. -/
def colOf (index : Int) : Int := index % 8

/-- The offsets `generate_moves` iterates over for a rook, a bishop or a queen. -/
def slide_directions (piece : Char) : List Int :=
  if toupper piece = 'R' then ROOK_MOVES
  else if toupper piece = 'B' then BISHOP_MOVES
  else if toupper piece = 'Q' then QUEEN_MOVES
  else []

/-- The destinations `generate_moves` pushes for the piece on `square` while it handles
the offset `move`. -/
def ray_moves (board : List Char) (square move : Int) : List Int :=
  slide board (sqAt board square) move 64 (square + move)

/-- A board that is empty but for the listed `(square, character)` pairs. -/
def boardWith (pieces : List (Nat × Char)) : List Char :=
  pieces.foldl (fun board entry => board.set entry.1 entry.2) (List.replicate 64 ' ')

/-- White rook on 52 between the white king on 60 and the black rook on 4, all on
column 4; black king on 0. -/
def pinBoard : List Char := boardWith [(0, 'k'), (4, 'r'), (52, 'R'), (60, 'K')]

/-- A lone white knight on square 8 (row 1, column 0). -/
def knightBoard : List Char := boardWith [(8, 'N')]

/-- A lone white rook on square 7 (row 0, column 7). -/
def rookBoard : List Char := boardWith [(7, 'R')]

/-- A lone white bishop on square 7 (row 0, column 7). -/
def bishopBoard : List Char := boardWith [(7, 'B')]

/-- A lone white king on square 7 (row 0, column 7). -/
def kingBoard : List Char := boardWith [(7, 'K')]

/-- White rook on 28 with a white pawn above it on 12 and a black pawn below it on 52,
all on column 4. -/
def fileBoard : List Char := boardWith [(12, 'P'), (28, 'R'), (52, 'p')]

/-- White pawn on square 16 (row 2, column 0) and a black pawn on square 7 (row 0,
column 7). -/
def wrapPawnBoard : List Char := boardWith [(7, 'p'), (16, 'P')]

/-- The enumeration `enum Color { WHITE, BLACK }` of `board.h`. -/
inductive Color where
  | WHITE
  | BLACK
  deriving DecidableEq

/-- The conversion of a `Color` to `bool`: `WHITE` is 0 and becomes `false`, `BLACK` is 1
and becomes `true`. -/
def Color.toBool : Color → Bool
  | Color.WHITE => false
  | Color.BLACK => true

/-- The structure `Piece` of `board.h`: `char type; bool color;`. -/
structure Piece where
  type : Char
  color : Bool
  deriving DecidableEq

/-- The read `squares[i]` of the array `std::array<Piece, 64> squares`. -/
def pieceAt (squares : List Piece) (i : Nat) : Piece :=
  squares.getD i ⟨' ', false⟩

/-- The loop of `Board::king`, with `n` iterations left and entered at index `i`. -/
def Board.king_loop (squares : List Piece) (king_char : Char) : Nat → Nat → Int
  | 0, _ => -1
  | n + 1, i =>
    if (pieceAt squares i).type = king_char then (i : Int)
    else Board.king_loop squares king_char n (i + 1)

/-- The method `Board::king` (`board.cpp`, lines 47-55): `color == WHITE` compares the
`bool` with the enumerator 0. -/
def Board.king (squares : List Piece) (color : Bool) : Int :=
  let king_char := if color = Color.WHITE.toBool then 'K' else 'k'
  Board.king_loop squares king_char 64 0

/-- The write `squares[index] = p`; a write outside the array of 64 squares is undefined
in C++ and gives `none`. -/
def Board.write (squares : List Piece) (index : Nat) (p : Piece) : Option (List Piece) :=
  if index < 64 then some (squares.set index p) else none

/-- The loop `for (int i = 0; i < empty; ++i)` of `Board::set_position`, with `n`
iterations left: it returns the column reached and the squares. -/
def Board.put_empty (row : Nat) : Nat → Nat → List Piece → Option (Nat × List Piece)
  | 0, col, squares => some (col, squares)
  | n + 1, col, squares =>
    match Board.write squares (row * 8 + col) ⟨' ', Color.WHITE.toBool⟩ with
    | none => none
    | some squares1 => Board.put_empty row n (col + 1) squares1

/-- The loop `for (char c : rank)` of `Board::set_position`, entered at column `col`. -/
def Board.set_rank (row : Nat) : List Char → Nat → List Piece → Option (List Piece)
  | [], _, squares => some squares
  | c :: rest, col, squares =>
    if c.isDigit then
      match Board.put_empty row (c.toNat - 48) col squares with
      | none => none
      | some (col1, squares1) => Board.set_rank row rest col1 squares1
    else
      match Board.write squares (row * 8 + col)
          ⟨c, (if isupper c then Color.WHITE else Color.BLACK).toBool⟩ with
      | none => none
      | some squares1 => Board.set_rank row rest (col + 1) squares1

/-- The ranks that the repeated `std::getline(iss, rank, '/')` extracts from the text that
is left, `cur` being the part of the current rank read so far.  At the end of the text an
extraction that read nothing fails and ends the loop, so no empty last rank is produced. -/
def getline_ranks : List Char → List Char → List (List Char)
  | cur, [] => if cur = [] then [] else [cur]
  | cur, c :: rest =>
    if c = '/' then cur :: getline_ranks [] rest else getline_ranks (cur ++ [c]) rest

/-- The loop `while (std::getline(iss, rank, '/'))` of `Board::set_position`, entered at
row `row`. -/
def Board.set_ranks : List (List Char) → Nat → List Piece → Option (List Piece)
  | [], _, squares => some squares
  | rank :: rest, row, squares =>
    match Board.set_rank row rank 0 squares with
    | none => none
    | some squares1 => Board.set_ranks rest (row + 1) squares1

/-- The method `Board::set_position` (`board.cpp`, lines 10-34), as a function of the text
and of the squares before the call.  It returns nothing in C++; the result here is the
squares after the call, or `none` when a write falls outside the array. -/
def Board.set_position (fen : String) (squares : List Piece) : Option (List Piece) :=
  Board.set_ranks (getline_ranks [] fen.toList) 0 squares

/-- The method `Board::piece_at` (`board.cpp`, lines 37-39). -/
def Board.piece_at (squares : List Piece) (square : Nat) : Piece :=
  pieceAt squares square

/-- The method `Board::color_at` (`board.cpp`, lines 42-44). -/
def Board.color_at (squares : List Piece) (square : Nat) : Color :=
  if (pieceAt squares square).color then Color.WHITE else Color.BLACK

/-- The text `Board::Board` passes to `set_position` (`board.cpp`, line 6). -/
def defaultFen : String := "rnbqkbnr/pppppppp/8/8/8/8/PPPPPPPP/RNBQKBNR"

/-- The squares a rank descriptor stands for: a digit `d` for `d` empty squares, any other
character for one piece, as `Board::set_position` writes them. -/
def expand_rank (rank : List Char) : List Piece :=
  rank.flatMap fun c =>
    if c.isDigit then List.replicate (c.toNat - 48) ⟨' ', Color.WHITE.toBool⟩
    else [⟨c, (if isupper c then Color.WHITE else Color.BLACK).toBool⟩]

/-- One possible content of the squares of a `Board` on which `set_position` has not run
yet. -/
def staleSquares : List Piece := List.replicate 64 ⟨'?', true⟩

/-- A layout whose last rank descriptor expands to 7 squares. -/
def shortFen : String := "8/8/8/8/8/8/8/7"

/-- A layout of two rank descriptors. -/
def twoRankFen : String := "8/8"

/-- A layout whose only rank descriptor expands to 9 squares. -/
def wideFen : String := "9"

/-! ## The reads of `generate_moves` -/

/-- The index read by `is_within_board(index) && ... board[index] ...`: the right operand
is evaluated only when the left one is true. -/
def guarded_read (index : Int) : List Int :=
  if is_within_board index then [index] else []

/-- The indices at which the `while` of a sliding piece and the `if` after it read the
board, for one offset; the arguments are those of `slide`. -/
def slide_reads (board : List Char) (move : Int) : Nat → Int → List Int
  | 0, _ => []
  | fuel + 1, new_square =>
    if is_within_board new_square && sqAt board new_square == ' ' then
      new_square :: slide_reads board move fuel (new_square + move)
    else guarded_read new_square

/-- The indices at which the pawn branch of `generate_moves` reads the board: the reads
behind `is_within_board`, and the unguarded `board[move_two]`, which is evaluated when the
single step was pushed and `row == start_row`. -/
def pawn_reads (board : List Char) (piece : Char) (square : Int) : List Int :=
  let row := Int.tdiv square BOARD_SIZE
  let direction : Int := if isupper piece then -1 else 1
  let start_row : Int := if isupper piece then 6 else 1
  let move_one := square + direction * BOARD_SIZE
  let move_two := square + direction * 2 * BOARD_SIZE
  guarded_read move_one
    ++ (if is_within_board move_one && sqAt board move_one == ' ' && row == start_row
        then [move_two] else [])
    ++ guarded_read (square + direction * (BOARD_SIZE - 1))
    ++ guarded_read (square + direction * (BOARD_SIZE + 1))

/-- The indices at which `generate_moves(board, square)` reads `board`, branch by branch:
`board[square]` first, then the reads of the branch taken. -/
def generate_moves_reads (board : List Char) (square : Int) : List Int :=
  let piece := sqAt board square
  square ::
    (if toupper piece = 'N' then KNIGHT_MOVES.flatMap fun move => guarded_read (square + move)
    else if toupper piece = 'K' then KING_MOVES.flatMap fun move => guarded_read (square + move)
    else if toupper piece = 'R' then
      ROOK_MOVES.flatMap fun move => slide_reads board move 64 (square + move)
    else if toupper piece = 'B' then
      BISHOP_MOVES.flatMap fun move => slide_reads board move 64 (square + move)
    else if toupper piece = 'Q' then
      QUEEN_MOVES.flatMap fun move => slide_reads board move 64 (square + move)
    else if toupper piece = 'P' then pawn_reads board piece square
    else [])

/-- The value of `attackers.size() - defenders.size()` (`chess_evaluation.cpp`, line 201):
both operands are `size_t`, taken as 64 bits wide, so the difference is computed modulo
`2 ^ 64`.  The `double support_value` is initialised from this unsigned value. -/
def support_difference (attackers defenders : List Int) : Int :=
  ((attackers.length : Int) - (defenders.length : Int)) % 2 ^ 64

/-- The normalisation step of `evaluate_piece_coordination` (`chess_evaluation.cpp`, lines
232-239) and the difference it returns, with the `double` totals as rational numbers. -/
def normalize_coordination (white_coordination black_coordination : ℚ) : ℚ :=
  let max_score := max white_coordination black_coordination
  let white_coordination :=
    if max_score ≠ 0 then white_coordination / max_score else white_coordination
  let black_coordination :=
    if max_score ≠ 0 then black_coordination / max_score else black_coordination
  white_coordination - black_coordination

/-- The spec's divisor: whichever of the two totals has the larger magnitude. -/
def larger_magnitude (w b : ℚ) : ℚ := if |b| ≤ |w| then w else b

/-- The spec's normalised factor: both totals divided by the total of larger magnitude,
the plain difference when that total is zero. -/
def spec_normalize (w b : ℚ) : ℚ :=
  if larger_magnitude w b = 0 then w - b
  else w / larger_magnitude w b - b / larger_magnitude w b

/-! ## `Board::attackers` -/

/-- The `switch (squares[i].type)` of `Board::attackers` (`board.cpp`, lines 63-98): what
it pushes for the piece `p` on square `i`.  `/` and `%` are the C++ ones, `Int.tdiv` and
`Int.tmod`. -/
def Board.attack_push (p : Piece) (i square : Int) : List Int :=
  if p.type = 'P' then
    if p.color = Color.WHITE.toBool then
      (if i - 9 ≥ 0 ∧ Int.tmod (i - 9) 8 ≠ 7 ∧ i - 9 = square then [i] else [])
        ++ (if i - 7 ≥ 0 ∧ Int.tmod (i - 7) 8 ≠ 0 ∧ i - 7 = square then [i] else [])
    else
      (if i + 9 < 64 ∧ Int.tmod (i + 9) 8 ≠ 0 ∧ i + 9 = square then [i] else [])
        ++ (if i + 7 < 64 ∧ Int.tmod (i + 7) 8 ≠ 7 ∧ i + 7 = square then [i] else [])
  else if p.type = 'N' then
    if i - 17 = square ∨ i - 15 = square ∨ i - 10 = square ∨ i - 6 = square
        ∨ i + 6 = square ∨ i + 10 = square ∨ i + 15 = square ∨ i + 17 = square then [i]
    else []
  else if p.type = 'B' then
    if Int.tmod square 8 - Int.tmod i 8 = Int.tdiv square 8 - Int.tdiv i 8
        ∨ Int.tmod square 8 - Int.tmod i 8 = Int.tdiv i 8 - Int.tdiv square 8 then [i]
    else []
  else if p.type = 'R' then
    if Int.tdiv square 8 = Int.tdiv i 8 ∨ Int.tmod square 8 = Int.tmod i 8 then [i]
    else []
  else if p.type = 'Q' then
    if (Int.tdiv square 8 = Int.tdiv i 8 ∨ Int.tmod square 8 = Int.tmod i 8)
        ∨ Int.tmod square 8 - Int.tmod i 8 = Int.tdiv square 8 - Int.tdiv i 8
        ∨ Int.tmod square 8 - Int.tmod i 8 = Int.tdiv i 8 - Int.tdiv square 8 then [i]
    else []
  else if p.type = 'K' then
    if |Int.tdiv square 8 - Int.tdiv i 8| ≤ 1 ∧ |Int.tmod square 8 - Int.tmod i 8| ≤ 1
    then [i]
    else []
  else []

/-- What one iteration of the loop of `Board::attackers` pushes for the square `i`
(`board.cpp`, lines 61-99). -/
def Board.attackers_at (squares : List Piece) (color : Bool) (square : Int) (i : Nat) :
    List Int :=
  if (pieceAt squares i).type ≠ ' ' ∧ (pieceAt squares i).color ≠ color then
    Board.attack_push (pieceAt squares i) i square
  else []

/-- The method `Board::attackers` (`board.cpp`, lines 58-102): the loop over `i = 0..63`
appends to `attacking_pieces`. -/
def Board.attackers (squares : List Piece) (color : Bool) (square : Int) : List Int :=
  (List.range 64).flatMap fun i => Board.attackers_at squares color square i

/-- The attack pattern of the geometry rules, occupied squares in between apart, for the
piece `p` on square `i` and the target square `q`, the kind of the piece being its `type`
letter in either case: one row forward and one column beside for a pawn, forward being
toward index 0 for a piece whose `color` field is `WHITE` converted to `bool`; an L-shaped
step for a knight; the same diagonal for a bishop; the same row or column for a rook;
either for a queen; at most one row and one column for a king. -/
def attack_geometry (p : Piece) (i q : Int) : Prop :=
  if toupper p.type = 'P' then
    rowOf q = rowOf i + (if p.color = Color.WHITE.toBool then -1 else 1)
      ∧ |colOf q - colOf i| = 1
  else if toupper p.type = 'N' then
    (|rowOf q - rowOf i| = 1 ∧ |colOf q - colOf i| = 2)
      ∨ (|rowOf q - rowOf i| = 2 ∧ |colOf q - colOf i| = 1)
  else if toupper p.type = 'B' then |rowOf q - rowOf i| = |colOf q - colOf i|
  else if toupper p.type = 'R' then rowOf q = rowOf i ∨ colOf q = colOf i
  else if toupper p.type = 'Q' then
    (rowOf q = rowOf i ∨ colOf q = colOf i) ∨ |rowOf q - rowOf i| = |colOf q - colOf i|
  else if toupper p.type = 'K' then |rowOf q - rowOf i| ≤ 1 ∧ |colOf q - colOf i| ≤ 1
  else False

/-- The squares of a `Board` as `Board::Board` leaves them: the default position decoded
over `staleSquares`. -/
def defaultSquares : List Piece :=
  (Board.set_position defaultFen staleSquares).getD []

set_option maxRecDepth 1000000

/-! ## Characters -/

theorem isUpper_iff (c : Char) : c.isUpper = true ↔ 65 ≤ c.toNat ∧ c.toNat ≤ 90 := by
  unfold Char.isUpper Char.toNat
  simp [UInt32.le_def, UInt32.toNat, BitVec.le_def]

theorem isLower_iff (c : Char) : c.isLower = true ↔ 97 ≤ c.toNat ∧ c.toNat ≤ 122 := by
  unfold Char.isLower Char.toNat
  simp [UInt32.le_def, UInt32.toNat, BitVec.le_def]

theorem mem_upperLetters (c : Char) (h : c.isUpper = true) : c ∈ upperLetters := by
  rw [isUpper_iff] at h
  have hc : c = Char.ofNat c.toNat := (Char.ofNat_toNat c).symm
  generalize c.toNat = n at h hc
  obtain ⟨h1, h2⟩ := h
  subst hc
  interval_cases n <;> decide

theorem mem_lowerLetters (c : Char) (h : c.isLower = true) : c ∈ lowerLetters := by
  rw [isLower_iff] at h
  have hc : c = Char.ofNat c.toNat := (Char.ofNat_toNat c).symm
  generalize c.toNat = n at h hc
  obtain ⟨h1, h2⟩ := h
  subst hc
  interval_cases n <;> decide

theorem toUpper_of_not_lower (c : Char) (h : c.isLower = false) : c.toUpper = c := by
  have h2 : ¬ (97 ≤ c.toNat ∧ c.toNat ≤ 122) := by
    rw [← isLower_iff]; simp [h]
  unfold Char.toUpper
  simp only [ge_iff_le]
  rw [if_neg h2]

theorem toLower_of_not_upper (c : Char) (h : c.isUpper = false) : c.toLower = c := by
  have h2 : ¬ (65 ≤ c.toNat ∧ c.toNat ≤ 90) := by
    rw [← isUpper_iff]; simp [h]
  unfold Char.toLower
  simp only [ge_iff_le]
  rw [if_neg h2]

/-- Every character is an uppercase letter, a lowercase letter, or one that the three
character functions leave alone. -/
theorem char_cases (c : Char) :
    c ∈ upperLetters ∨ c ∈ lowerLetters
      ∨ (c.isUpper = false ∧ c.isLower = false ∧ c.toUpper = c ∧ c.toLower = c) := by
  by_cases hu : c.isUpper = true
  · exact Or.inl (mem_upperLetters c hu)
  · by_cases hl : c.isLower = true
    · exact Or.inr (Or.inl (mem_lowerLetters c hl))
    · simp only [Bool.not_eq_true] at hu hl
      exact Or.inr (Or.inr ⟨hu, hl, toUpper_of_not_lower c hl, toLower_of_not_upper c hu⟩)

/-- A property that holds of the 52 letters and of every character the character
functions leave alone holds of every character. -/
theorem char_induction (P : Char → Prop) (hU : ∀ c ∈ upperLetters, P c)
    (hL : ∀ c ∈ lowerLetters, P c)
    (hO : ∀ c : Char, c.isUpper = false → c.isLower = false → c.toUpper = c →
      c.toLower = c → P c) (c : Char) : P c := by
  rcases char_cases c with h | h | ⟨h1, h2, h3, h4⟩
  · exact hU c h
  · exact hL c h
  · exact hO c h1 h2 h3 h4

/-! ## Material balance: the loop and the spec's sums -/

theorem material_step_eq (acc : Int × Int) (c : Char) :
    material_step acc c = (acc.1 + white_value c, acc.2 + black_value c) := by
  unfold material_step white_value black_value
  by_cases hc : c = ' '
  · simp [hc]
  · by_cases hu : isupper c = true
    · simp [hc, hu]
    · simp [hc, hu]

theorem foldl_material_step (board : List Char) (acc : Int × Int) :
    board.foldl material_step acc
      = (acc.1 + (board.map white_value).sum, acc.2 + (board.map black_value).sum) := by
  induction board generalizing acc with
  | nil => simp
  | cons c rest ih =>
    rw [List.foldl_cons, ih, material_step_eq]
    simp only [List.map_cons, List.sum_cons]
    ext <;> simp only [] <;> omega

/-- The material balance is the sum of the per-square white contributions minus the sum
of the per-square black contributions. -/
theorem evaluate_material_balance_eq_sums (board : List Char) :
    evaluate_material_balance board
      = (board.map white_value).sum - (board.map black_value).sum := by
  unfold evaluate_material_balance
  rw [foldl_material_step]
  simp

theorem piece_value_eq_spec (c : Char) :
    piece_value_for_material_balance c = spec_piece_value c := by
  unfold piece_value_for_material_balance spec_piece_value PAWN_VALUE KNIGHT_VALUE
    BISHOP_VALUE ROOK_VALUE QUEEN_VALUE
  by_cases h1 : c = 'P'
  · subst h1; decide
  by_cases h2 : c = 'N'
  · subst h2; decide
  by_cases h3 : c = 'B'
  · subst h3; decide
  by_cases h4 : c = 'R'
  · subst h4; decide
  by_cases h5 : c = 'Q'
  · subst h5; decide
  by_cases h6 : c = 'p'
  · subst h6; decide
  by_cases h7 : c = 'n'
  · subst h7; decide
  by_cases h8 : c = 'b'
  · subst h8; decide
  by_cases h9 : c = 'r'
  · subst h9; decide
  by_cases h10 : c = 'q'
  · subst h10; decide
  simp [h1, h2, h3, h4, h5, h6, h7, h8, h9, h10]

theorem white_value_eq (c : Char) :
    white_value c = if c.isUpper = true then spec_piece_value c else 0 := by
  revert c
  apply char_induction
  · decide
  · decide
  · intro c hu _ _ _
    simp [white_value, isupper, hu]

theorem black_value_eq (c : Char) :
    black_value c = if c.isLower = true then spec_piece_value c else 0 := by
  revert c
  apply char_induction
  · decide
  · decide
  · intro c hu hl _ _
    simp only [hl, Bool.false_eq_true, if_false]
    unfold black_value
    split
    · rw [piece_value_eq_spec]
      unfold spec_piece_value
      have hne : ∀ d : Char, d.isLower = true → c ≠ d := fun d hd h => by
        rw [h] at hl; rw [hl] at hd; exact Bool.noConfusion hd
      have hne2 : ∀ d : Char, d.isUpper = true → c ≠ d := fun d hd h => by
        rw [h] at hu; rw [hu] at hd; exact Bool.noConfusion hd
      simp [hne 'p' (by decide), hne 'n' (by decide), hne 'b' (by decide),
        hne 'r' (by decide), hne 'q' (by decide), hne2 'P' (by decide),
        hne2 'N' (by decide), hne2 'B' (by decide), hne2 'R' (by decide),
        hne2 'Q' (by decide)]
    · rfl

theorem sum_map_ite_eq_filter (p : Char → Bool) (f : Char → Int) (board : List Char) :
    (board.map fun c => if p c = true then f c else 0).sum
      = ((board.filter p).map f).sum := by
  induction board with
  | nil => simp
  | cons c rest ih =>
    by_cases h : p c = true
    · simp [List.filter_cons, h, ih]
    · simp [List.filter_cons, h, ih]

theorem sums_eq_spec (board : List Char) :
    (board.map white_value).sum - (board.map black_value).sum
      = spec_material_balance board := by
  unfold spec_material_balance
  rw [← sum_map_ite_eq_filter, ← sum_map_ite_eq_filter]
  have h1 : white_value = fun c => if c.isUpper = true then spec_piece_value c else 0 :=
    funext white_value_eq
  have h2 : black_value = fun c => if c.isLower = true then spec_piece_value c else 0 :=
    funext black_value_eq
  rw [h1, h2]

/-- C1. For every board, `evaluate_material_balance` returns the sum of the values of the
uppercase letters (White's pieces) minus the sum of the values of the lowercase letters
(Black's pieces), where the value the code gives a character is the spec's: pawn 1,
knight 3, bishop 3, rook 5, queen 9, king and anything else 0; on the standard starting
position it returns 0. -/
theorem evaluate_material_balance_spec (board : List Char) :
    evaluate_material_balance board = spec_material_balance board
      ∧ (∀ c : Char, piece_value_for_material_balance c = spec_piece_value c)
      ∧ evaluate_material_balance startBoard = 0 := by
  refine ⟨?_, piece_value_eq_spec, by decide⟩
  rw [evaluate_material_balance_eq_sums, sums_eq_spec]

/-! ## Mirroring -/

/-- The state of `mirrored_board` after the first `k` iterations of the loop. -/
theorem mirror_loop_invariant (board : List Char) (k : Nat) (hk : k ≤ board.length) :
    let m := (List.range k).foldl
      (fun mirrored_board i =>
        mirrored_board.set (board.length - 1 - i) (mirror_piece (board.getD i ' ')))
      (List.replicate board.length (Char.ofNat 0))
    m.length = board.length
      ∧ ∀ i, i < k → m[board.length - 1 - i]? = some (mirror_piece (board.getD i ' ')) := by
  induction k with
  | zero => simp
  | succ k ih =>
    obtain ⟨hlen, hget⟩ := ih (by omega)
    simp only [List.range_succ, List.foldl_append, List.foldl_cons, List.foldl_nil]
    refine ⟨by simp only [List.length_set]; exact hlen, ?_⟩
    intro i hi
    by_cases hik : i = k
    · subst hik
      rw [List.getElem?_set_self (by omega)]
    · rw [List.getElem?_set_ne (by omega)]
      exact hget i (by omega)

/-- The loop of `mirror_board` builds the reversed board with every piece recoloured. -/
theorem mirror_board_eq (board : List Char) :
    mirror_board board = (board.map mirror_piece).reverse := by
  obtain ⟨hlen, hget⟩ := mirror_loop_invariant board board.length (le_refl _)
  apply List.ext_getElem?
  intro j
  by_cases hj : j < board.length
  · have h := hget (board.length - 1 - j) (by omega)
    have e : board.length - 1 - (board.length - 1 - j) = j := by omega
    rw [e] at h
    unfold mirror_board
    rw [h, List.getElem?_reverse (by simpa using hj), List.getElem?_map]
    simp only [List.length_map]
    rw [List.getD_eq_getElem?_getD]
    have hlt : board.length - 1 - j < board.length := by omega
    rw [List.getElem?_eq_getElem hlt]
    simp
  · have h1 : (mirror_board board)[j]? = none := by
      apply List.getElem?_eq_none
      unfold mirror_board
      omega
    have h2 : ((board.map mirror_piece).reverse)[j]? = none := by
      apply List.getElem?_eq_none
      simp only [List.length_reverse, List.length_map]
      omega
    rw [h1, h2]

theorem mirror_piece_involutive (c : Char) : mirror_piece (mirror_piece c) = c := by
  revert c
  apply char_induction
  · decide
  · decide
  · intro c hu hl htu htl
    by_cases hc : c = ' '
    · subst hc; decide
    · have e : mirror_piece c = c := by
        simp [mirror_piece, hc, isupper, hu, toupper, htu]
      rw [e, e]

theorem white_value_mirror (c : Char) : white_value (mirror_piece c) = black_value c := by
  revert c
  apply char_induction
  · decide
  · decide
  · intro c hu hl htu htl
    by_cases hc : c = ' '
    · subst hc; decide
    · have e : mirror_piece c = c := by
        simp [mirror_piece, hc, isupper, hu, toupper, htu]
      rw [e, white_value_eq, black_value_eq, hu, hl]

theorem black_value_mirror (c : Char) : black_value (mirror_piece c) = white_value c := by
  have h := white_value_mirror (mirror_piece c)
  rw [mirror_piece_involutive] at h
  exact h.symm

/-- C2. Side-symmetry law: for every board, the material balance of the mirrored board
(colours swapped, square order reversed) is the negation of the material balance of the
board. -/
theorem evaluate_material_balance_mirror (board : List Char) :
    evaluate_material_balance (mirror_board board) = - evaluate_material_balance board := by
  rw [evaluate_material_balance_eq_sums, evaluate_material_balance_eq_sums, mirror_board_eq,
    List.map_reverse, List.map_reverse, List.sum_reverse, List.sum_reverse, List.map_map,
    List.map_map]
  have h1 : white_value ∘ mirror_piece = black_value := funext white_value_mirror
  have h2 : black_value ∘ mirror_piece = white_value := funext black_value_mirror
  rw [h1, h2]
  omega

/-- C3. For every board, mirroring twice gives the board back: the same length and the
same character on every square. -/
theorem mirror_board_involutive (board : List Char) :
    mirror_board (mirror_board board) = board := by
  rw [mirror_board_eq, mirror_board_eq, List.map_reverse, List.reverse_reverse, List.map_map]
  have h : mirror_piece ∘ mirror_piece = id := funext mirror_piece_involutive
  rw [h, List.map_id]

/-! ## The engine evaluated on concrete positions -/

/-- C4. On `pinBoard` the white rook on 52 is pinned to its king on 60 by the black rook
on 4.  The sideways move 52 to 51 is pseudo-legal; after it the king's square 60 is a
destination of the black rook; `is_legal_move` nevertheless returns true, whether
`isupper` returns 1 or 256, because `is_square_attacked` is called with `!color` and then
inspects the squares with `isupper(piece) != !color`, the mover's own pieces. -/
theorem is_legal_move_accepts_unpinning_move :
    pinBoard.length = 64
      ∧ (51 : Int) ∈ generate_moves pinBoard 52
      ∧ find_king (simulate_move pinBoard 52 51) true = 60
      ∧ sqAt (simulate_move pinBoard 52 51) 4 = 'r'
      ∧ (60 : Int) ∈ generate_moves (simulate_move pinBoard 52 51) 4
      ∧ is_legal_move 1 pinBoard 52 51 true = true
      ∧ is_legal_move 256 pinBoard 52 51 true = true := by
  decide

/-- C5. On the standard starting position `count_legal_moves` returns 21 for White and
21 for Black where `isupper` returns 1, and 0 for White and 21 for Black where it returns
256, never 20 and 20: the knight on 57 (row 7, column 1) is given the destination 47
(row 5, column 7) and the knight on 6 (row 0, column 6) the destination 16 (row 2,
column 0), both across a rank boundary. -/
theorem count_legal_moves_startBoard :
    count_legal_moves 1 startBoard true = 21 ∧ count_legal_moves 1 startBoard false = 21
      ∧ count_legal_moves 256 startBoard true = 0
      ∧ count_legal_moves 256 startBoard false = 21
      ∧ generate_moves startBoard 57 = [42, 40, 47]
      ∧ generate_moves startBoard 6 = [21, 23, 16] := by
  decide

/-- C6. A knight on square 8 (row 1, column 0) of an otherwise empty board is given the
destinations 23 (row 2, column 7) and 14 (row 1, column 6): both wrap across a rank
boundary. -/
theorem generate_moves_knight_wraps :
    knightBoard.length = 64 ∧ sqAt knightBoard 8 = 'N'
      ∧ generate_moves knightBoard 8 = [23, 25, 18, 14, 2]
      ∧ colOf 8 = 0 ∧ colOf 14 = 6 ∧ colOf 23 = 7
      ∧ rowOf 14 - rowOf 8 = 0 ∧ colOf 14 - colOf 8 = 6 := by
  decide

/-- C8. A rook on square 7 (row 0, column 7) of an otherwise empty board is given the
destination 9 (row 1, column 1), on neither its row nor its column; a bishop on square 7
is given the destination 0 (row 0, column 0), seven columns away on the same row. -/
theorem generate_moves_slider_wraps :
    rookBoard.length = 64 ∧ sqAt rookBoard 7 = 'R'
      ∧ (9 : Int) ∈ generate_moves rookBoard 7
      ∧ rowOf 9 ≠ rowOf 7 ∧ colOf 9 ≠ colOf 7
      ∧ bishopBoard.length = 64 ∧ sqAt bishopBoard 7 = 'B'
      ∧ (0 : Int) ∈ generate_moves bishopBoard 7
      ∧ |rowOf 0 - rowOf 7| = 0 ∧ |colOf 0 - colOf 7| = 7 := by
  decide

/-- C9. A king on square 7 (row 0, column 7) of an otherwise empty board is given the
destinations 8 (row 1, column 0) and 16 (row 2, column 0): seven columns away, and for
16 two rows away. -/
theorem generate_moves_king_wraps :
    kingBoard.length = 64 ∧ sqAt kingBoard 7 = 'K'
      ∧ generate_moves kingBoard 7 = [8, 6, 15, 16, 14, 0]
      ∧ |colOf 8 - colOf 7| = 7 ∧ |rowOf 16 - rowOf 7| = 2 := by
  decide

/-! ## Pawn pushes -/

theorem is_within_board_iff (index : Int) :
    is_within_board index = true ↔ 0 ≤ index ∧ index < 64 := by
  simp [is_within_board, BOARD_SIZE]

theorem generate_moves_white_pawn (board : List Char) (s : Int) (hp : sqAt board s = 'P') :
    generate_moves board s = pawn_moves board 'P' s := by
  unfold generate_moves
  simp only [hp]
  rfl

theorem generate_moves_black_pawn (board : List Char) (s : Int) (hp : sqAt board s = 'p') :
    generate_moves board s = pawn_moves board 'p' s := by
  unfold generate_moves
  simp only [hp]
  rfl

theorem mem_pawn_moves_white (board : List Char) (s d : Int) (hs : 0 ≤ s) :
    d ∈ pawn_moves board 'P' s ↔
      (d = s - 8 ∧ is_within_board (s - 8) = true ∧ sqAt board (s - 8) = ' ')
      ∨ (d = s - 16 ∧ is_within_board (s - 8) = true ∧ sqAt board (s - 8) = ' '
          ∧ s / 8 = 6 ∧ sqAt board (s - 16) = ' ')
      ∨ (d = s - 7 ∧ is_within_board (s - 7) = true ∧ sqAt board (s - 7) ≠ ' '
          ∧ isupper (sqAt board (s - 7)) = false)
      ∨ (d = s - 9 ∧ is_within_board (s - 9) = true ∧ sqAt board (s - 9) ≠ ' '
          ∧ isupper (sqAt board (s - 9)) = false) := by
  have hu : isupper 'P' = true := by decide
  have e1 : s + -1 * 8 = s - 8 := by ring
  have e2 : s + -1 * 2 * 8 = s - 16 := by ring
  have e3 : s + -1 * (8 - 1) = s - 7 := by ring
  have e4 : s + -1 * (8 + 1) = s - 9 := by ring
  have e5 : Int.tdiv s 8 = s / 8 := Int.tdiv_eq_ediv hs (by decide)
  simp only [pawn_moves, hu, if_true, BOARD_SIZE, e1, e2, e3, e4, e5, List.mem_append]
  constructor
  · rintro ((h | h) | h)
    · split at h
      · rename_i hc
        simp only [Bool.and_eq_true, beq_iff_eq] at hc
        rcases List.mem_cons.mp h with h | h
        · exact Or.inl ⟨h, hc.1, hc.2⟩
        · split at h
          · rename_i hc2
            simp only [Bool.and_eq_true, beq_iff_eq] at hc2
            simp only [List.mem_singleton] at h
            exact Or.inr (Or.inl ⟨h, hc.1, hc.2, hc2.1, hc2.2⟩)
          · simp at h
      · simp at h
    · split at h
      · rename_i hc
        simp only [Bool.and_eq_true, bne_iff_ne, ne_eq, Bool.not_eq_true] at hc
        simp only [List.mem_singleton] at h
        exact Or.inr (Or.inr (Or.inl ⟨h, hc.1.1, hc.1.2, hc.2⟩))
      · simp at h
    · split at h
      · rename_i hc
        simp only [Bool.and_eq_true, bne_iff_ne, ne_eq, Bool.not_eq_true] at hc
        simp only [List.mem_singleton] at h
        exact Or.inr (Or.inr (Or.inr ⟨h, hc.1.1, hc.1.2, hc.2⟩))
      · simp at h
  · rintro (⟨h, h1, h2⟩ | ⟨h, h1, h2, h3, h4⟩ | ⟨h, h1, h2, h3⟩ | ⟨h, h1, h2, h3⟩)
    · left; left
      simp [h, h1, h2]
    · left; left
      simp [h, h1, h2, h3, h4]
    · left; right
      simp [h, h1, h2, h3]
    · right
      simp [h, h1, h2, h3]

theorem mem_pawn_moves_black (board : List Char) (s d : Int) (hs : 0 ≤ s) :
    d ∈ pawn_moves board 'p' s ↔
      (d = s + 8 ∧ is_within_board (s + 8) = true ∧ sqAt board (s + 8) = ' ')
      ∨ (d = s + 16 ∧ is_within_board (s + 8) = true ∧ sqAt board (s + 8) = ' '
          ∧ s / 8 = 1 ∧ sqAt board (s + 16) = ' ')
      ∨ (d = s + 7 ∧ is_within_board (s + 7) = true ∧ sqAt board (s + 7) ≠ ' '
          ∧ isupper (sqAt board (s + 7)) = true)
      ∨ (d = s + 9 ∧ is_within_board (s + 9) = true ∧ sqAt board (s + 9) ≠ ' '
          ∧ isupper (sqAt board (s + 9)) = true) := by
  have hu : isupper 'p' = false := by decide
  have e1 : s + 1 * 8 = s + 8 := by ring
  have e2 : s + 1 * 2 * 8 = s + 16 := by ring
  have e3 : s + 1 * (8 - 1) = s + 7 := by ring
  have e4 : s + 1 * (8 + 1) = s + 9 := by ring
  have e5 : Int.tdiv s 8 = s / 8 := Int.tdiv_eq_ediv hs (by decide)
  simp only [pawn_moves, hu, Bool.false_eq_true, if_false, BOARD_SIZE, e1, e2, e3, e4, e5,
    List.mem_append]
  constructor
  · rintro ((h | h) | h)
    · split at h
      · rename_i hc
        simp only [Bool.and_eq_true, beq_iff_eq] at hc
        rcases List.mem_cons.mp h with h | h
        · exact Or.inl ⟨h, hc.1, hc.2⟩
        · split at h
          · rename_i hc2
            simp only [Bool.and_eq_true, beq_iff_eq] at hc2
            simp only [List.mem_singleton] at h
            exact Or.inr (Or.inl ⟨h, hc.1, hc.2, hc2.1, hc2.2⟩)
          · simp at h
      · simp at h
    · split at h
      · rename_i hc
        simp only [Bool.and_eq_true, bne_iff_ne, ne_eq, Bool.not_eq_false] at hc
        simp only [List.mem_singleton] at h
        exact Or.inr (Or.inr (Or.inl ⟨h, hc.1.1, hc.1.2, hc.2⟩))
      · simp at h
    · split at h
      · rename_i hc
        simp only [Bool.and_eq_true, bne_iff_ne, ne_eq, Bool.not_eq_false] at hc
        simp only [List.mem_singleton] at h
        exact Or.inr (Or.inr (Or.inr ⟨h, hc.1.1, hc.1.2, hc.2⟩))
      · simp at h
  · rintro (⟨h, h1, h2⟩ | ⟨h, h1, h2, h3, h4⟩ | ⟨h, h1, h2, h3⟩ | ⟨h, h1, h2, h3⟩)
    · left; left
      simp [h, h1, h2]
    · left; left
      simp [h, h1, h2, h3, h4]
    · left; right
      simp [h, h1, h2, h3]
    · right
      simp [h, h1, h2, h3]

/-- C10. Pawn pushes.  On a board of 64 squares, for a white pawn on `s`: `s - 8` is
generated iff it is on the board and empty; `s - 16` is generated iff `s` is on row 6 and
`s - 8` and `s - 16` are both empty; and every generated square in the pawn's own column
is one of the two.  For a black pawn the same holds with `s + 8`, `s + 16` and row 1. -/
theorem generate_moves_pawn_pushes (board : List Char) (s : Int)
    (_hlen : board.length = 64) (hs : 0 ≤ s ∧ s < 64) :
    (sqAt board s = 'P' →
      ((s - 8 ∈ generate_moves board s ↔
          is_within_board (s - 8) = true ∧ sqAt board (s - 8) = ' ')
        ∧ (s - 16 ∈ generate_moves board s ↔
          rowOf s = 6 ∧ sqAt board (s - 8) = ' ' ∧ sqAt board (s - 16) = ' ')
        ∧ ∀ d ∈ generate_moves board s, colOf d = colOf s → d = s - 8 ∨ d = s - 16))
    ∧ (sqAt board s = 'p' →
      ((s + 8 ∈ generate_moves board s ↔
          is_within_board (s + 8) = true ∧ sqAt board (s + 8) = ' ')
        ∧ (s + 16 ∈ generate_moves board s ↔
          rowOf s = 1 ∧ sqAt board (s + 8) = ' ' ∧ sqAt board (s + 16) = ' ')
        ∧ ∀ d ∈ generate_moves board s, colOf d = colOf s → d = s + 8 ∨ d = s + 16)) := by
  obtain ⟨hs0, hs1⟩ := hs
  constructor
  · intro hp
    rw [generate_moves_white_pawn board s hp]
    simp only [mem_pawn_moves_white board s _ hs0, is_within_board_iff, rowOf, colOf]
    refine ⟨?_, ?_, ?_⟩
    · constructor
      · rintro (⟨_, h1, h2⟩ | ⟨h, _⟩ | ⟨h, _⟩ | ⟨h, _⟩)
        · exact ⟨h1, h2⟩
        · omega
        · omega
        · omega
      · rintro ⟨h1, h2⟩
        exact Or.inl ⟨trivial, h1, h2⟩
    · constructor
      · rintro (⟨h, _⟩ | ⟨_, _, h2, h3, h4⟩ | ⟨h, _⟩ | ⟨h, _⟩)
        · omega
        · exact ⟨h3, h2, h4⟩
        · omega
        · omega
      · rintro ⟨h1, h2, h3⟩
        exact Or.inr (Or.inl ⟨trivial, ⟨by omega, by omega⟩, h2, h1, h3⟩)
    · rintro d (⟨h, _⟩ | ⟨h, _⟩ | ⟨h, _⟩ | ⟨h, _⟩) hcol
      · exact Or.inl h
      · exact Or.inr h
      · omega
      · omega
  · intro hp
    rw [generate_moves_black_pawn board s hp]
    simp only [mem_pawn_moves_black board s _ hs0, is_within_board_iff, rowOf, colOf]
    refine ⟨?_, ?_, ?_⟩
    · constructor
      · rintro (⟨_, h1, h2⟩ | ⟨h, _⟩ | ⟨h, _⟩ | ⟨h, _⟩)
        · exact ⟨h1, h2⟩
        · omega
        · omega
        · omega
      · rintro ⟨h1, h2⟩
        exact Or.inl ⟨trivial, h1, h2⟩
    · constructor
      · rintro (⟨h, _⟩ | ⟨_, _, h2, h3, h4⟩ | ⟨h, _⟩ | ⟨h, _⟩)
        · omega
        · exact ⟨h3, h2, h4⟩
        · omega
        · omega
      · rintro ⟨h1, h2, h3⟩
        exact Or.inr (Or.inl ⟨trivial, ⟨by omega, by omega⟩, h2, h1, h3⟩)
    · rintro d (⟨h, _⟩ | ⟨h, _⟩ | ⟨h, _⟩ | ⟨h, _⟩) hcol
      · exact Or.inl h
      · exact Or.inr h
      · omega
      · omega

/-- The white pawn on square 52 of the starting position: both pushes are generated and
nothing else in its column. -/
theorem generate_moves_pawn_pushes_witness :
    (startBoard.length = 64 ∧ ((0 : Int) ≤ 52 ∧ (52 : Int) < 64)
        ∧ sqAt startBoard 52 = 'P')
      ∧ (52 - 8 : Int) ∈ generate_moves startBoard 52
      ∧ (52 - 16 : Int) ∈ generate_moves startBoard 52
      ∧ ∀ d ∈ generate_moves startBoard 52, colOf d = colOf 52 → d = 52 - 8 ∨ d = 52 - 16 :=
  have h := (generate_moves_pawn_pushes startBoard 52 (by decide) (by decide)).1 (by decide)
  ⟨⟨by decide, by decide, by decide⟩, h.1.mpr (by decide), h.2.1.mpr (by decide), h.2.2⟩
/-! ## Ray termination -/

/-- The shape of what the `while` and the `if` after it push, entered at `sq` with enough
tests allowed to run off the board: `n` consecutive empty squares, then the square at
which the loop stopped when it is within the board and holds a character of the other
case. -/
theorem slide_shape (board : List Char) (piece : Char) (move : Int) (hm : move ≠ 0)
    (fuel : Nat) (sq : Int)
    (hfuel : 1 ≤ fuel ∧ (0 < move → 65 - sq ≤ fuel) ∧ (move < 0 → sq + 2 ≤ fuel)) :
    ∃ n : Nat,
      (∀ j : Nat, j < n →
        is_within_board (sq + j * move) = true ∧ sqAt board (sq + j * move) = ' ')
      ∧ (is_within_board (sq + n * move) = true → sqAt board (sq + n * move) ≠ ' ')
      ∧ slide board piece move fuel sq
          = (List.range n).map (fun j : Nat => sq + j * move)
            ++ (if is_within_board (sq + n * move)
                  && isupper (sqAt board (sq + n * move)) != isupper piece
                then [sq + n * move] else []) := by
  induction fuel generalizing sq with
  | zero => omega
  | succ fuel ih =>
    obtain ⟨_, hpos, hneg⟩ := hfuel
    by_cases hc : (is_within_board sq && sqAt board sq == ' ') = true
    · have hc2 := hc
      simp only [Bool.and_eq_true, beq_iff_eq] at hc2
      obtain ⟨hw, he⟩ := hc2
      have hw2 := (is_within_board_iff sq).mp hw
      obtain ⟨n, h1, h2, h3⟩ := ih (sq + move) (by
        refine ⟨?_, ?_, ?_⟩
        · rcases lt_or_gt_of_ne hm with h | h
          · have := hneg h; omega
          · have := hpos h; omega
        · intro h; have := hpos h; omega
        · intro h; have := hneg h; push_cast at this ⊢; omega)
      have hstep : ∀ j : Nat, sq + move + j * move = sq + ((j + 1 : Nat) : Int) * move := by
        intro j; push_cast; ring
      refine ⟨n + 1, ?_, ?_, ?_⟩
      · intro j hj
        cases j with
        | zero => simpa using ⟨hw, he⟩
        | succ j => rw [← hstep]; exact h1 j (by omega)
      · rw [← hstep]; exact h2
      · rw [slide, if_pos hc, h3, List.range_succ_eq_map, List.map_cons, List.map_map,
          ← hstep]
        simp only [Nat.cast_zero, zero_mul, add_zero, List.cons_append, List.cons.injEq,
          true_and]
        congr 1
        apply List.map_congr_left
        intro j _
        simp only [Function.comp, Nat.succ_eq_add_one]
        rw [hstep]
    · refine ⟨0, ?_, ?_, ?_⟩
      · intro j hj; omega
      · intro hw he
        apply hc
        simp only [Nat.cast_zero, zero_mul, add_zero] at hw he
        simp [hw, he]
      · rw [slide, if_neg hc]
        simp

theorem slide_directions_ne_zero (piece : Char) (move : Int)
    (h : move ∈ slide_directions piece) : move ≠ 0 := by
  intro h0
  subst h0
  unfold slide_directions at h
  split_ifs at h <;> revert h <;> decide

theorem generate_moves_slider (board : List Char) (s : Int)
    (hp : toupper (sqAt board s) = 'R' ∨ toupper (sqAt board s) = 'B'
      ∨ toupper (sqAt board s) = 'Q') :
    generate_moves board s
      = (slide_directions (sqAt board s)).flatMap fun move => ray_moves board s move := by
  rcases hp with h | h | h <;>
    simp [generate_moves, slide_directions, slide_moves, ray_moves, h]

/-- C7. Ray termination.  On a board of 64 squares with a rook, bishop or queen on `s`,
`generate_moves` returns, offset after offset of that piece, the squares it pushes for
that offset; and for each offset `move` these are the `n` consecutive empty squares
`s + move, ..., s + n * move` (stepping by index), where the next square
`s + (n + 1) * move` is off the board or occupied, followed by that next square exactly
when it is on the board and holds a character of the other case. -/
theorem generate_moves_ray_termination (board : List Char) (s : Int)
    (_hlen : board.length = 64) (hs : 0 ≤ s ∧ s < 64)
    (hp : toupper (sqAt board s) = 'R' ∨ toupper (sqAt board s) = 'B'
      ∨ toupper (sqAt board s) = 'Q') :
    generate_moves board s
        = ((slide_directions (sqAt board s)).flatMap fun move => ray_moves board s move)
      ∧ ∀ move ∈ slide_directions (sqAt board s), ∃ n : Nat,
          (∀ j : Nat, 1 ≤ j → j ≤ n →
            is_within_board (s + j * move) = true ∧ sqAt board (s + j * move) = ' ')
          ∧ (is_within_board (s + (n + 1 : Nat) * move) = true →
              sqAt board (s + (n + 1 : Nat) * move) ≠ ' ')
          ∧ ray_moves board s move
              = (List.range n).map (fun j : Nat => s + (j + 1 : Nat) * move)
                ++ (if is_within_board (s + (n + 1 : Nat) * move)
                      && isupper (sqAt board (s + (n + 1 : Nat) * move))
                          != isupper (sqAt board s)
                    then [s + (n + 1 : Nat) * move] else []) := by
  refine ⟨generate_moves_slider board s hp, ?_⟩
  intro move hmove
  have hm := slide_directions_ne_zero _ _ hmove
  obtain ⟨n, h1, h2, h3⟩ := slide_shape board (sqAt board s) move hm 64 (s + move) (by
    refine ⟨by omega, ?_, ?_⟩
    · intro h; push_cast; omega
    · intro h; push_cast; omega)
  have hstep : ∀ j : Nat, s + move + j * move = s + ((j + 1 : Nat) : Int) * move := by
    intro j; push_cast; ring
  refine ⟨n, ?_, ?_, ?_⟩
  · intro j hj1 hjn
    obtain ⟨k, rfl⟩ : ∃ k, j = k + 1 := ⟨j - 1, by omega⟩
    rw [← hstep]
    exact h1 k (by omega)
  · rw [← hstep]; exact h2
  · unfold ray_moves
    rw [h3, ← hstep]
    congr 1
    apply List.map_congr_left
    intro j _
    exact hstep j

/-- The rook of `fileBoard` on square 28: down the file it reaches the black pawn on 52
and captures it, up the file it stops short of its own pawn on 12. -/
theorem generate_moves_ray_termination_witness :
    (fileBoard.length = 64 ∧ ((0 : Int) ≤ 28 ∧ (28 : Int) < 64)
        ∧ toupper (sqAt fileBoard 28) = 'R')
      ∧ ray_moves fileBoard 28 8 = [36, 44, 52]
      ∧ ray_moves fileBoard 28 (-8) = [20]
      ∧ sqAt fileBoard 12 = 'P' ∧ sqAt fileBoard 52 = 'p'
      ∧ generate_moves fileBoard 28
          = ((slide_directions (sqAt fileBoard 28)).flatMap fun move =>
              ray_moves fileBoard 28 move) :=
  ⟨⟨by decide, by decide, by decide⟩, by decide, by decide, by decide, by decide,
    (generate_moves_ray_termination fileBoard 28 (by decide) (by decide)
      (Or.inl (by decide))).1⟩

/-! ## Pawn captures and attack detection -/

/-- C11. A white pawn on square 16 (row 2, column 0) with a black pawn on square 7 (row 0,
column 7) is given the capture 16 to 7: the offset -9 wraps from column 0 to column 7 and
lands two rows ahead. -/
theorem generate_moves_pawn_capture_wraps :
    wrapPawnBoard.length = 64 ∧ sqAt wrapPawnBoard 16 = 'P' ∧ sqAt wrapPawnBoard 7 = 'p'
      ∧ generate_moves wrapPawnBoard 16 = [8, 7]
      ∧ colOf 16 = 0 ∧ colOf 7 = 7 ∧ rowOf 16 - rowOf 7 = 2 := by
  decide

theorem sqAt_natCast (board : List Char) (i : Nat) : sqAt board (i : Int) = board.getD i ' ' :=
  rfl

theorem isupper_int_ne_false (upper : Int) (c : Char) (h : upper ≠ 0) :
    isupper_int upper c ≠ bool_int false ↔ isupper c = true := by
  unfold isupper_int bool_int isupper
  cases hc : c.isUpper <;> simp [h]

theorem isupper_int_ne_true (upper : Int) (c : Char) (h : isupper c = false) :
    isupper_int upper c ≠ bool_int true := by
  unfold isupper at h
  unfold isupper_int bool_int
  simp [h]

theorem isupper_int_one (c : Char) (color : Bool) :
    isupper_int 1 c = bool_int color ↔ isupper c = color := by
  unfold isupper_int bool_int isupper
  cases hc : c.isUpper <;> cases color <;> simp

/-- The loop of `is_square_attacked` returns true exactly when some inspected square, one
with `piece != ' ' && isupper(piece) != color`, has `square` among its destinations. -/
theorem is_square_attacked_iff (upper : Int) (board : List Char) (q : Int) (color : Bool) :
    is_square_attacked upper board q color = true ↔
      ∃ i : Nat, i < board.length ∧ sqAt board i ≠ ' '
        ∧ isupper_int upper (sqAt board i) ≠ bool_int color
        ∧ q ∈ generate_moves board i := by
  unfold is_square_attacked
  simp only [List.any_eq_true, List.mem_range, Bool.and_eq_true, bne_iff_ne, ne_eq,
    sqAt_natCast]
  constructor
  · rintro ⟨i, hi, ⟨h1, h2⟩, h3⟩
    exact ⟨i, hi, h1, h2, List.elem_iff.mp h3⟩
  · rintro ⟨i, hi, h1, h2, h3⟩
    exact ⟨i, hi, ⟨h1, h2⟩, List.elem_iff.mpr h3⟩

/-- With `true` as third argument and `isupper` returning a value other than 1, every
non-empty square is inspected. -/
theorem isupper_int_ne_one (upper : Int) (c : Char) (h : upper ≠ 1) :
    isupper_int upper c ≠ bool_int true := by
  unfold isupper_int bool_int
  cases hc : c.isUpper <;> simp [h]

theorem is_square_attacked_true_iff (upper : Int) (board : List Char) (q : Int)
    (h : upper ≠ 1) :
    is_square_attacked upper board q true = true ↔
      ∃ i : Nat, i < board.length ∧ sqAt board i ≠ ' ' ∧ q ∈ generate_moves board i := by
  rw [is_square_attacked_iff]
  constructor
  · rintro ⟨i, hi, h1, _, h3⟩
    exact ⟨i, hi, h1, h3⟩
  · rintro ⟨i, hi, h1, h3⟩
    exact ⟨i, hi, h1, isupper_int_ne_one upper _ h, h3⟩

/-- C12, as the code has it.  On a board of 64 squares, whatever nonzero value `isupper`
returns on an uppercase letter: `is_square_attacked(board, q, false)` is true if and only
if some square holds an uppercase piece whose `generate_moves` destinations contain `q`,
so the third argument names the side that is attacked; where `isupper` returns 1,
`is_square_attacked(board, q, true)` is true if and only if some square holds a non-empty
piece that is not uppercase whose destinations contain `q`; and where `isupper` returns
another value, it is true if and only if some non-empty square, of either case, has `q`
among its destinations. -/
theorem is_square_attacked_spec (upper : Int) (board : List Char) (q : Int)
    (hupper : upper ≠ 0) (hlen : board.length = 64) :
    (is_square_attacked upper board q false = true ↔
        ∃ i : Nat, i < 64 ∧ sqAt board i ≠ ' ' ∧ isupper (sqAt board i) = true
          ∧ q ∈ generate_moves board i)
      ∧ (upper = 1 →
          (is_square_attacked upper board q true = true ↔
            ∃ i : Nat, i < 64 ∧ sqAt board i ≠ ' ' ∧ isupper (sqAt board i) = false
              ∧ q ∈ generate_moves board i))
      ∧ (upper ≠ 1 →
          (is_square_attacked upper board q true = true ↔
            ∃ i : Nat, i < 64 ∧ sqAt board i ≠ ' ' ∧ q ∈ generate_moves board i)) := by
  refine ⟨?_, ?_, ?_⟩
  · simp only [is_square_attacked_iff, hlen]
    constructor
    · rintro ⟨i, hi, h1, h2, h3⟩
      exact ⟨i, hi, h1, (isupper_int_ne_false upper _ hupper).mp h2, h3⟩
    · rintro ⟨i, hi, h1, h2, h3⟩
      exact ⟨i, hi, h1, (isupper_int_ne_false upper _ hupper).mpr h2, h3⟩
  · intro h1
    subst h1
    simp only [is_square_attacked_iff, hlen]
    constructor
    · rintro ⟨i, hi, h1, h2, h3⟩
      refine ⟨i, hi, h1, ?_, h3⟩
      cases hu : isupper (sqAt board i)
      · rfl
      · exact absurd ((isupper_int_one _ true).mpr hu) h2
    · rintro ⟨i, hi, h1, h2, h3⟩
      exact ⟨i, hi, h1, isupper_int_ne_true 1 _ h2, h3⟩
  · intro h1
    rw [is_square_attacked_true_iff upper board q h1, hlen]

/-- The lone white rook of `rookBoard` on square 7 has square 6 among its destinations:
where `isupper` returns 256, the square is reported attacked with `false` as third
argument, and with `true` as well, the rook being inspected either way. -/
theorem is_square_attacked_spec_witness :
    ((256 : Int) ≠ 0 ∧ rookBoard.length = 64)
      ∧ (is_square_attacked 256 rookBoard 6 false = true ↔
          ∃ i : Nat, i < 64 ∧ sqAt rookBoard i ≠ ' ' ∧ isupper (sqAt rookBoard i) = true
            ∧ (6 : Int) ∈ generate_moves rookBoard i)
      ∧ (is_square_attacked 256 rookBoard 6 true = true ↔
          ∃ i : Nat, i < 64 ∧ sqAt rookBoard i ≠ ' '
            ∧ (6 : Int) ∈ generate_moves rookBoard i) :=
  ⟨⟨by decide, by decide⟩,
    (is_square_attacked_spec 256 rookBoard 6 (by decide) (by decide)).1,
    (is_square_attacked_spec 256 rookBoard 6 (by decide) (by decide)).2.2 (by decide)⟩

/-- C12, as stated, fails for the side `false`: `rookBoard` holds no piece of that side (no
non-empty square that is not uppercase), yet `is_square_attacked(board, 6, false)` is
true, on account of the white rook on square 7, whether `isupper` returns 1 or 256. -/
theorem is_square_attacked_not_by_side :
    is_square_attacked 1 rookBoard 6 false = true
      ∧ is_square_attacked 256 rookBoard 6 false = true
      ∧ ¬ (∃ i : Nat, i < 64 ∧ sqAt rookBoard i ≠ ' ' ∧ isupper (sqAt rookBoard i) = false
          ∧ (6 : Int) ∈ generate_moves rookBoard i) := by
  refine ⟨by decide, by decide, ?_⟩
  rintro ⟨i, hi, h1, h2, _⟩
  have hall : ∀ j : Nat, j < 64 →
      sqAt rookBoard j = ' ' ∨ isupper (sqAt rookBoard j) = true := by decide
  rcases hall i hi with h | h
  · exact h1 h
  · rw [h] at h2; exact Bool.noConfusion h2

theorem sqAt_set_self (board : List Char) (s : Nat) (c : Char) (hs : s < board.length) :
    sqAt (board.set s c) (s : Int) = c := by
  rw [sqAt_natCast, List.getD_eq_getElem?_getD, List.getElem?_set_self hs]
  rfl

theorem sqAt_set_ne (board : List Char) (s : Nat) (c : Char) (i : Int) (hi : i ≠ (s : Int)) :
    sqAt (board.set s c) i = sqAt board i := by
  cases i with
  | ofNat n =>
    have hn : s ≠ n := fun h => hi (by rw [h]; rfl)
    show (board.set s c).getD n ' ' = board.getD n ' '
    rw [List.getD_eq_getElem?_getD, List.getD_eq_getElem?_getD, List.getElem?_set_ne hn]
  | negSucc n => rfl

/-- A ray that starts beyond `s` and moves away from it reads neither the square `s` nor
more of the piece than its case. -/
theorem slide_congr (b1 b2 : List Char) (p1 p2 : Char) (s move : Int)
    (hb : ∀ i : Int, i ≠ s → sqAt b1 i = sqAt b2 i) (hp : isupper p1 = isupper p2)
    (fuel : Nat) (sq : Int) (hdir : (0 < move ∧ s < sq) ∨ (move < 0 ∧ sq < s)) :
    slide b1 p1 move fuel sq = slide b2 p2 move fuel sq := by
  induction fuel generalizing sq with
  | zero => rfl
  | succ fuel ih =>
    have hsq : sq ≠ s := by omega
    rw [slide, slide, hb sq hsq, hp, ih (sq + move) (by omega)]

theorem slide_moves_congr (b1 b2 : List Char) (p1 p2 : Char) (s : Int) (moves : List Int)
    (hb : ∀ i : Int, i ≠ s → sqAt b1 i = sqAt b2 i) (hp : isupper p1 = isupper p2)
    (hm : ∀ move ∈ moves, move ≠ 0) :
    slide_moves b1 p1 s moves = slide_moves b2 p2 s moves := by
  unfold slide_moves
  induction moves with
  | nil => rfl
  | cons move rest ih =>
    rw [List.flatMap_cons, List.flatMap_cons,
      ih (fun m hmem => hm m (List.mem_cons_of_mem _ hmem))]
    have h0 := hm move (List.mem_cons_self _ _)
    rw [slide_congr b1 b2 p1 p2 s move hb hp 64 (s + move) (by omega)]

/-- C14. Queen = rook + bishop.  On a board of 64 squares, put a queen, a rook or a bishop
of one side on square `s` and leave every other square as it is: the list `generate_moves`
returns for the queen is the list for the rook followed by the list for the bishop, so a
square is a queen destination exactly when it is a rook or a bishop destination. -/
theorem generate_moves_queen_eq_rook_append_bishop (board : List Char) (s : Nat)
    (white : Bool) (hlen : board.length = 64) (hs : s < 64) :
    generate_moves (board.set s (if white then 'Q' else 'q')) s
        = generate_moves (board.set s (if white then 'R' else 'r')) s
          ++ generate_moves (board.set s (if white then 'B' else 'b')) s
      ∧ ∀ d : Int, d ∈ generate_moves (board.set s (if white then 'Q' else 'q')) s ↔
          d ∈ generate_moves (board.set s (if white then 'R' else 'r')) s
            ∨ d ∈ generate_moves (board.set s (if white then 'B' else 'b')) s := by
  have hs2 : s < board.length := by omega
  have key : generate_moves (board.set s (if white then 'Q' else 'q')) s
      = generate_moves (board.set s (if white then 'R' else 'r')) s
        ++ generate_moves (board.set s (if white then 'B' else 'b')) s := by
    have hq : ∀ c : Char, generate_moves (board.set s c) s
        = (let piece := c
          if toupper piece = 'N' then step_moves (board.set s c) piece s KNIGHT_MOVES
          else if toupper piece = 'K' then step_moves (board.set s c) piece s KING_MOVES
          else if toupper piece = 'R' then slide_moves (board.set s c) piece s ROOK_MOVES
          else if toupper piece = 'B' then slide_moves (board.set s c) piece s BISHOP_MOVES
          else if toupper piece = 'Q' then slide_moves (board.set s c) piece s QUEEN_MOVES
          else if toupper piece = 'P' then pawn_moves (board.set s c) piece s
          else []) := by
      intro c
      unfold generate_moves
      rw [sqAt_set_self board s c hs2]
    have hframe : ∀ c1 c2 : Char, ∀ i : Int, i ≠ (s : Int) →
        sqAt (board.set s c1) i = sqAt (board.set s c2) i := by
      intro c1 c2 i hi
      rw [sqAt_set_ne board s c1 i hi, sqAt_set_ne board s c2 i hi]
    have hsplit : ∀ (b : List Char) (p : Char), slide_moves b p s QUEEN_MOVES
        = slide_moves b p s ROOK_MOVES ++ slide_moves b p s BISHOP_MOVES := by
      intro b p
      unfold slide_moves
      rw [← List.flatMap_append]
      rfl
    have hR : ∀ m ∈ ROOK_MOVES, m ≠ 0 := by decide
    have hB : ∀ m ∈ BISHOP_MOVES, m ≠ 0 := by decide
    cases white
    · simp only [Bool.false_eq_true, if_false]
      rw [hq 'q', hq 'r', hq 'b']
      have e1 : toupper 'q' = 'Q' := by decide
      have e2 : toupper 'r' = 'R' := by decide
      have e3 : toupper 'b' = 'B' := by decide
      simp only [e1, e2, e3]
      simp only [show ('Q' : Char) ≠ 'N' by decide, show ('Q' : Char) ≠ 'K' by decide,
        show ('Q' : Char) ≠ 'R' by decide, show ('Q' : Char) ≠ 'B' by decide,
        show ('R' : Char) ≠ 'N' by decide, show ('R' : Char) ≠ 'K' by decide,
        show ('B' : Char) ≠ 'N' by decide, show ('B' : Char) ≠ 'K' by decide,
        show ('B' : Char) ≠ 'R' by decide, if_true, if_false]
      rw [hsplit,
        slide_moves_congr (board.set s 'q') (board.set s 'r') 'q' 'r' s ROOK_MOVES
          (hframe 'q' 'r') (by decide) hR,
        slide_moves_congr (board.set s 'q') (board.set s 'b') 'q' 'b' s BISHOP_MOVES
          (hframe 'q' 'b') (by decide) hB]
    · simp only [if_true]
      rw [hq 'Q', hq 'R', hq 'B']
      have e1 : toupper 'Q' = 'Q' := by decide
      have e2 : toupper 'R' = 'R' := by decide
      have e3 : toupper 'B' = 'B' := by decide
      simp only [e1, e2, e3]
      simp only [show ('Q' : Char) ≠ 'N' by decide, show ('Q' : Char) ≠ 'K' by decide,
        show ('Q' : Char) ≠ 'R' by decide, show ('Q' : Char) ≠ 'B' by decide,
        show ('R' : Char) ≠ 'N' by decide, show ('R' : Char) ≠ 'K' by decide,
        show ('B' : Char) ≠ 'N' by decide, show ('B' : Char) ≠ 'K' by decide,
        show ('B' : Char) ≠ 'R' by decide, if_true, if_false]
      rw [hsplit,
        slide_moves_congr (board.set s 'Q') (board.set s 'R') 'Q' 'R' s ROOK_MOVES
          (hframe 'Q' 'R') (by decide) hR,
        slide_moves_congr (board.set s 'Q') (board.set s 'B') 'Q' 'B' s BISHOP_MOVES
          (hframe 'Q' 'B') (by decide) hB]
  refine ⟨key, ?_⟩
  intro d
  rw [key, List.mem_append]

/-- A queen, a rook and a bishop on square 28 of the board of `fileBoard`. -/
theorem generate_moves_queen_eq_rook_append_bishop_witness :
    (fileBoard.length = 64 ∧ 28 < 64)
      ∧ generate_moves (fileBoard.set 28 (if true then 'Q' else 'q')) (28 : Nat)
        = generate_moves (fileBoard.set 28 (if true then 'R' else 'r')) (28 : Nat)
          ++ generate_moves (fileBoard.set 28 (if true then 'B' else 'b')) (28 : Nat) :=
  ⟨⟨by decide, by decide⟩,
    (generate_moves_queen_eq_rook_append_bishop fileBoard 28 true (by decide)
      (by decide)).1⟩

/-! ## Simulating a move -/

/-- C15. For every board and valid squares `from_square != to_square`, `simulate_move`
returns a board of the same length that holds on `to_square` what stood on `from_square`,
is empty on `from_square`, and agrees with the input on every other square, whatever
stood on `to_square` and whatever the move; the input is a value and stays as it is. -/
theorem simulate_move_spec (board : List Char) (from_square to_square : Nat)
    (hf : from_square < board.length) (ht : to_square < board.length)
    (hne : from_square ≠ to_square) :
    (simulate_move board from_square to_square).length = board.length
      ∧ sqAt (simulate_move board from_square to_square) to_square = sqAt board from_square
      ∧ sqAt (simulate_move board from_square to_square) from_square = ' '
      ∧ ∀ i : Int, i ≠ from_square → i ≠ to_square →
          sqAt (simulate_move board from_square to_square) i = sqAt board i := by
  unfold simulate_move
  simp only [Int.toNat_ofNat]
  refine ⟨by simp, ?_, ?_, ?_⟩
  · rw [sqAt_set_ne _ _ _ _ (by omega), sqAt_set_self _ _ _ ht]
  · rw [sqAt_set_self _ _ _ (by simpa using hf)]
  · intro i h1 h2
    rw [sqAt_set_ne _ _ _ _ h1, sqAt_set_ne _ _ _ _ h2]

/-- The move 52 to 36 on the starting position. -/
theorem simulate_move_spec_witness :
    (52 < startBoard.length ∧ 36 < startBoard.length ∧ 52 ≠ 36)
      ∧ sqAt (simulate_move startBoard (52 : Nat) (36 : Nat)) (36 : Nat)
          = sqAt startBoard (52 : Nat)
      ∧ sqAt (simulate_move startBoard (52 : Nat) (36 : Nat)) (52 : Nat) = ' ' :=
  have h := simulate_move_spec startBoard 52 36 (by decide) (by decide) (by decide)
  ⟨⟨by decide, by decide, by decide⟩, h.2.1, h.2.2.1⟩

/-! ## King lookup -/

theorem find_king_loop_spec (king : Char) (l : List Char) (i0 : Int) :
    (∃ k : Nat, find_king_loop king l i0 = i0 + k ∧ k < l.length ∧ l.getD k ' ' = king
        ∧ ∀ j : Nat, j < k → l.getD j ' ' ≠ king)
      ∨ (find_king_loop king l i0 = -1 ∧ ∀ j : Nat, j < l.length → l.getD j ' ' ≠ king) := by
  induction l generalizing i0 with
  | nil => exact Or.inr ⟨rfl, fun j hj => by simp at hj⟩
  | cons c rest ih =>
    by_cases hc : c = king
    · left
      refine ⟨0, by simp [find_king_loop, hc], by simp, by simpa using hc, ?_⟩
      intro j hj; omega
    · rcases ih (i0 + 1) with ⟨k, h1, h2, h3, h4⟩ | ⟨h1, h2⟩
      · left
        refine ⟨k + 1, ?_, by simpa using h2, by simpa using h3, ?_⟩
        · rw [find_king_loop, if_neg hc, h1]; push_cast; ring
        · intro j hj
          cases j with
          | zero => simpa using hc
          | succ j => simpa using h4 j (by omega)
      · right
        refine ⟨by rw [find_king_loop, if_neg hc, h1], ?_⟩
        intro j hj
        cases j with
        | zero => simpa using hc
        | succ j => simpa using h2 j (by simpa using hj)

theorem king_loop_spec (squares : List Piece) (king : Char) (n i0 : Nat) :
    (∃ k : Nat, Board.king_loop squares king n i0 = (k : Int) ∧ i0 ≤ k ∧ k < i0 + n
        ∧ (pieceAt squares k).type = king
        ∧ ∀ j : Nat, i0 ≤ j → j < k → (pieceAt squares j).type ≠ king)
      ∨ (Board.king_loop squares king n i0 = -1
        ∧ ∀ j : Nat, i0 ≤ j → j < i0 + n → (pieceAt squares j).type ≠ king) := by
  induction n generalizing i0 with
  | zero => exact Or.inr ⟨rfl, fun j h1 h2 => by omega⟩
  | succ n ih =>
    by_cases hc : (pieceAt squares i0).type = king
    · left
      refine ⟨i0, by rw [Board.king_loop, if_pos hc], le_refl _, by omega, hc, ?_⟩
      intro j h1 h2; omega
    · rcases ih (i0 + 1) with ⟨k, h1, h2, h3, h4, h5⟩ | ⟨h1, h2⟩
      · left
        refine ⟨k, by rw [Board.king_loop, if_neg hc, h1], by omega, by omega, h4, ?_⟩
        intro j hj1 hj2
        by_cases hj : j = i0
        · rw [hj]; exact hc
        · exact h5 j (by omega) hj2
      · right
        refine ⟨by rw [Board.king_loop, if_neg hc, h1], ?_⟩
        intro j hj1 hj2
        by_cases hj : j = i0
        · rw [hj]; exact hc
        · exact h2 j (by omega) (by omega)

/-- C16. King lookup.  For every board and side, `find_king` returns -1 if and only if no
square holds that side's king (`'K'` for White, `'k'` for Black), and otherwise the lowest
index whose square holds it.  The same holds of `Board::king` on the 64 squares of a
`Board`, where the side is a `Color` converted to `bool`. -/
theorem find_king_spec (board : List Char) (color : Bool) (squares : List Piece)
    (side : Color) :
    ((find_king board color = -1 ↔
        ∀ i : Nat, i < board.length → sqAt board i ≠ (if color then 'K' else 'k'))
      ∧ (find_king board color ≠ -1 →
        ∃ k : Nat, find_king board color = k ∧ k < board.length
          ∧ sqAt board k = (if color then 'K' else 'k')
          ∧ ∀ j : Nat, j < k → sqAt board j ≠ (if color then 'K' else 'k')))
    ∧ ((Board.king squares side.toBool = -1 ↔
        ∀ i : Nat, i < 64 →
          (pieceAt squares i).type ≠ (if side = Color.WHITE then 'K' else 'k'))
      ∧ (Board.king squares side.toBool ≠ -1 →
        ∃ k : Nat, Board.king squares side.toBool = k ∧ k < 64
          ∧ (pieceAt squares k).type = (if side = Color.WHITE then 'K' else 'k')
          ∧ ∀ j : Nat, j < k →
              (pieceAt squares j).type ≠ (if side = Color.WHITE then 'K' else 'k'))) := by
  constructor
  · unfold find_king
    simp only [sqAt_natCast]
    rcases find_king_loop_spec (if color then 'K' else 'k') board 0 with
      ⟨k, h1, h2, h3, h4⟩ | ⟨h1, h2⟩
    · rw [h1]
      refine ⟨⟨fun h => by omega, fun h => absurd h3 (h k h2)⟩, fun _ => ?_⟩
      exact ⟨k, by simp, h2, h3, h4⟩
    · rw [h1]
      exact ⟨⟨fun _ => h2, fun _ => rfl⟩, fun h => absurd rfl h⟩
  · have hk : (if side.toBool = Color.WHITE.toBool then 'K' else 'k')
        = (if side = Color.WHITE then 'K' else 'k') := by
      cases side <;> rfl
    unfold Board.king
    simp only [hk]
    rcases king_loop_spec squares (if side = Color.WHITE then 'K' else 'k') 64 0 with
      ⟨k, h1, _, h3, h4, h5⟩ | ⟨h1, h2⟩
    · rw [h1]
      refine ⟨⟨fun h => by omega, fun h => absurd h4 (h k (by omega))⟩, fun _ => ?_⟩
      exact ⟨k, rfl, by omega, h4, fun j hj => h5 j (by omega) hj⟩
    · rw [h1]
      refine ⟨⟨fun _ => fun i hi => h2 i (by omega) (by omega), fun _ => rfl⟩,
        fun h => absurd rfl h⟩

/-! ## Decoding a layout -/

theorem pieceAt_set (sq : List Piece) (i j : Nat) (p : Piece) (hi : i < sq.length) :
    pieceAt (sq.set i p) j = if j = i then p else pieceAt sq j := by
  unfold pieceAt
  rw [List.getD_eq_getElem?_getD, List.getD_eq_getElem?_getD]
  by_cases h : j = i
  · subst h
    rw [List.getElem?_set_self hi, if_pos rfl]
    rfl
  · rw [List.getElem?_set_ne (fun e => h e.symm), if_neg h]

theorem pieceAt_append (l1 l2 : List Piece) (k : Nat) :
    pieceAt (l1 ++ l2) k
      = if k < l1.length then pieceAt l1 k else pieceAt l2 (k - l1.length) := by
  unfold pieceAt
  rw [List.getD_eq_getElem?_getD, List.getD_eq_getElem?_getD, List.getD_eq_getElem?_getD]
  by_cases h : k < l1.length
  · rw [if_pos h, List.getElem?_append_left h]
  · rw [if_neg h, List.getElem?_append_right (by omega)]

theorem pieceAt_replicate (n k : Nat) (p : Piece) (hk : k < n) :
    pieceAt (List.replicate n p) k = p := by
  unfold pieceAt
  rw [List.getD_eq_getElem?_getD, List.getElem?_replicate, if_pos hk]
  rfl

/-- The digit loop writes `n` empty squares from column `col` on. -/
theorem put_empty_spec (row n col : Nat) (sq : List Piece) (hlen : sq.length = 64)
    (hfit : row * 8 + col + n ≤ 64) :
    ∃ sq1, Board.put_empty row n col sq = some (col + n, sq1) ∧ sq1.length = 64
      ∧ ∀ j, pieceAt sq1 j
          = if row * 8 + col ≤ j ∧ j < row * 8 + col + n then ⟨' ', Color.WHITE.toBool⟩
            else pieceAt sq j := by
  induction n generalizing col sq with
  | zero =>
    refine ⟨sq, rfl, hlen, ?_⟩
    intro j
    rw [if_neg (by omega)]
  | succ n ih =>
    have hw : Board.write sq (row * 8 + col) ⟨' ', Color.WHITE.toBool⟩
        = some (sq.set (row * 8 + col) ⟨' ', Color.WHITE.toBool⟩) := by
      unfold Board.write
      rw [if_pos (by omega)]
    obtain ⟨sq1, h1, h2, h3⟩ := ih (col + 1)
      (sq.set (row * 8 + col) ⟨' ', Color.WHITE.toBool⟩) (by simpa using hlen) (by omega)
    refine ⟨sq1, ?_, h2, ?_⟩
    · rw [Board.put_empty, hw]
      simp only []
      rw [h1]
      congr 2
      omega
    · intro j
      rw [h3 j, pieceAt_set _ _ _ _ (by omega)]
      split_ifs <;> first | rfl | (exfalso; omega)

theorem expand_rank_cons (c : Char) (rest : List Char) :
    expand_rank (c :: rest)
      = (if c.isDigit then List.replicate (c.toNat - 48) ⟨' ', Color.WHITE.toBool⟩
          else [⟨c, (if isupper c then Color.WHITE else Color.BLACK).toBool⟩])
        ++ expand_rank rest := by
  unfold expand_rank
  rw [List.flatMap_cons]

theorem set_rank_cons (row : Nat) (c : Char) (rest : List Char) (col : Nat)
    (squares : List Piece) :
    Board.set_rank row (c :: rest) col squares
      = if c.isDigit then
          match Board.put_empty row (c.toNat - 48) col squares with
          | none => none
          | some (col1, squares1) => Board.set_rank row rest col1 squares1
        else
          match Board.write squares (row * 8 + col)
              ⟨c, (if isupper c then Color.WHITE else Color.BLACK).toBool⟩ with
          | none => none
          | some squares1 => Board.set_rank row rest (col + 1) squares1 := rfl

/-- The loop over one rank descriptor writes its expansion from column `col` on. -/
theorem set_rank_spec (row : Nat) (rank : List Char) (col : Nat) (sq : List Piece)
    (hlen : sq.length = 64) (hfit : row * 8 + col + (expand_rank rank).length ≤ 64) :
    ∃ sq1, Board.set_rank row rank col sq = some sq1 ∧ sq1.length = 64
      ∧ ∀ j, pieceAt sq1 j
          = if row * 8 + col ≤ j ∧ j < row * 8 + col + (expand_rank rank).length
            then pieceAt (expand_rank rank) (j - (row * 8 + col))
            else pieceAt sq j := by
  induction rank generalizing col sq with
  | nil =>
    refine ⟨sq, rfl, hlen, ?_⟩
    intro j
    rw [if_neg (by simp [expand_rank])]
  | cons c rest ih =>
    rw [expand_rank_cons] at hfit ⊢
    by_cases hd : c.isDigit = true
    · simp only [hd, if_true, List.length_append, List.length_replicate] at hfit ⊢
      obtain ⟨sq1, h1, h2, h3⟩ :=
        put_empty_spec row (c.toNat - 48) col sq hlen (by omega)
      obtain ⟨sq2, k1, k2, k3⟩ := ih (col + (c.toNat - 48)) sq1 h2 (by omega)
      refine ⟨sq2, ?_, k2, ?_⟩
      · rw [set_rank_cons, if_pos hd, h1]
        exact k1
      · intro j
        rw [k3 j, h3 j, pieceAt_append, List.length_replicate]
        by_cases hj1 : row * 8 + (col + (c.toNat - 48)) ≤ j
            ∧ j < row * 8 + (col + (c.toNat - 48)) + (expand_rank rest).length
        · have e : j - (row * 8 + (col + (c.toNat - 48)))
              = j - (row * 8 + col) - (c.toNat - 48) := by omega
          rw [e]
          split_ifs <;> first | rfl | (exfalso; omega)
        · by_cases hj2 : row * 8 + col ≤ j ∧ j < row * 8 + col + (c.toNat - 48)
          · rw [pieceAt_replicate _ (j - (row * 8 + col)) _ (by omega)]
            split_ifs <;> first | rfl | (exfalso; omega)
          · split_ifs <;> first | rfl | (exfalso; omega)
    · simp only [hd, Bool.false_eq_true, if_false, List.length_append, List.length_singleton]
        at hfit ⊢
      have hw : Board.write sq (row * 8 + col)
          ⟨c, (if isupper c then Color.WHITE else Color.BLACK).toBool⟩
          = some (sq.set (row * 8 + col)
              ⟨c, (if isupper c then Color.WHITE else Color.BLACK).toBool⟩) := by
        unfold Board.write
        rw [if_pos (by omega)]
      obtain ⟨sq2, k1, k2, k3⟩ := ih (col + 1)
        (sq.set (row * 8 + col) ⟨c, (if isupper c then Color.WHITE else Color.BLACK).toBool⟩)
        (by simpa using hlen) (by omega)
      refine ⟨sq2, ?_, k2, ?_⟩
      · rw [set_rank_cons, if_neg hd, hw]
        exact k1
      · intro j
        rw [k3 j, pieceAt_set _ _ _ _ (by omega), pieceAt_append, List.length_singleton]
        by_cases hj1 : row * 8 + (col + 1) ≤ j
            ∧ j < row * 8 + (col + 1) + (expand_rank rest).length
        · have e : j - (row * 8 + (col + 1)) = j - (row * 8 + col) - 1 := by omega
          rw [e]
          split_ifs <;> first | rfl | (exfalso; omega)
        · by_cases hj2 : j = row * 8 + col
          · have e : j - (row * 8 + col) = 0 := by omega
            rw [e]
            split_ifs <;> first | rfl | (exfalso; omega)
          · split_ifs <;> first | rfl | (exfalso; omega)
/-- The loop over the rank descriptors: with at most 8 rows in all and at most 8 squares
to a rank, every covered square holds its item and every other square is untouched. -/
theorem set_ranks_spec (ranks : List (List Char)) (row : Nat) (sq : List Piece)
    (hlen : sq.length = 64) (hrows : row + ranks.length ≤ 8)
    (hwidth : ∀ rank ∈ ranks, (expand_rank rank).length ≤ 8) :
    ∃ sq1, Board.set_ranks ranks row sq = some sq1 ∧ sq1.length = 64
      ∧ ∀ r c : Nat, c < 8 →
          pieceAt sq1 (r * 8 + c)
            = if row ≤ r ∧ r < row + ranks.length
                  ∧ c < (expand_rank (ranks.getD (r - row) [])).length
              then pieceAt (expand_rank (ranks.getD (r - row) [])) c
              else pieceAt sq (r * 8 + c) := by
  induction ranks generalizing row sq with
  | nil =>
    refine ⟨sq, rfl, hlen, ?_⟩
    intro r c _
    rw [if_neg (by simp only [List.length_nil]; omega)]
  | cons rank rest ih =>
    have hw := hwidth rank (List.mem_cons_self _ _)
    simp only [List.length_cons] at hrows
    obtain ⟨sq1, h1, h2, h3⟩ := set_rank_spec row rank 0 sq hlen (by omega)
    obtain ⟨sq2, k1, k2, k3⟩ := ih (row + 1) sq1 h2 (by omega)
      (fun rk hrk => hwidth rk (List.mem_cons_of_mem _ hrk))
    refine ⟨sq2, ?_, k2, ?_⟩
    · show (match Board.set_rank row rank 0 sq with
        | none => none
        | some squares1 => Board.set_ranks rest (row + 1) squares1) = some sq2
      rw [h1]
      exact k1
    · intro r c hc
      rw [k3 r c hc, h3 (r * 8 + c)]
      simp only [List.length_cons]
      by_cases hr : r = row
      · subst hr
        have e : r - r = 0 := by omega
        rw [e, List.getD_cons_zero]
        have e2 : r * 8 + c - (r * 8 + 0) = c := by omega
        rw [e2]
        split_ifs <;> first | rfl | (exfalso; omega)
      · by_cases hr2 : row < r
        · have e : r - row = (r - (row + 1)) + 1 := by omega
          rw [e, List.getD_cons_succ]
          split_ifs <;> first | rfl | (exfalso; omega)
        · split_ifs <;> first | rfl | (exfalso; omega)

/-- What `Board::set_position` leaves on the squares for a text of at most 8 rank
descriptors that expand to at most 8 squares each. -/
theorem set_position_squares (fen : String) (squares : List Piece)
    (hlen : squares.length = 64)
    (hranks : (getline_ranks [] fen.toList).length ≤ 8)
    (hwidth : ∀ rank ∈ getline_ranks [] fen.toList, (expand_rank rank).length ≤ 8) :
    ∃ sq1, Board.set_position fen squares = some sq1 ∧ sq1.length = 64
      ∧ ∀ r c : Nat, c < 8 →
          pieceAt sq1 (r * 8 + c)
            = if r < (getline_ranks [] fen.toList).length
                  ∧ c < (expand_rank ((getline_ranks [] fen.toList).getD r [])).length
              then pieceAt (expand_rank ((getline_ranks [] fen.toList).getD r [])) c
              else pieceAt squares (r * 8 + c) := by
  obtain ⟨sq1, h1, h2, h3⟩ :=
    set_ranks_spec (getline_ranks [] fen.toList) 0 squares hlen (by omega) hwidth
  refine ⟨sq1, h1, h2, ?_⟩
  intro r c hc
  rw [h3 r c hc]
  simp only [Nat.zero_le, true_and, Nat.zero_add, Nat.sub_zero]
/-- The default position covers every square: after `set_position(defaultFen)` each
square holds the item of its rank descriptor, whatever the squares held before. -/
theorem set_position_default (squares : List Piece) (hlen : squares.length = 64) :
    ∃ sq1, Board.set_position defaultFen squares = some sq1 ∧ sq1.length = 64
      ∧ ∀ r : Nat, r < 8 → ∀ c : Nat, c < 8 →
          pieceAt sq1 (r * 8 + c)
            = pieceAt (expand_rank ((getline_ranks [] defaultFen.toList).getD r [])) c := by
  obtain ⟨sq1, h1, h2, h3⟩ :=
    set_position_squares defaultFen squares hlen (by decide) (by decide)
  refine ⟨sq1, h1, h2, ?_⟩
  intro r hr c hc
  have hcover : ∀ r : Nat, r < 8 → ∀ c : Nat, c < 8 →
      r < (getline_ranks [] defaultFen.toList).length
        ∧ c < (expand_rank ((getline_ranks [] defaultFen.toList).getD r [])).length := by
    decide
  rw [h3 r c hc, if_pos (hcover r hr c hc)]

/-- C17. After `Board::set_position` on the default position, whatever the squares held
before, square 4 has `type` `'k'` and square 0 has `type` `'r'`: the source letter itself,
not its uppercase form `'K'`, `'R'`; square 60 has `type` `'K'` and square 20, from a digit
run, has `type` `' '`. -/
theorem set_position_stores_source_letter (squares : List Piece)
    (hlen : squares.length = 64) :
    ∃ sq1, Board.set_position defaultFen squares = some sq1
      ∧ (Board.piece_at sq1 4).type = 'k' ∧ toupper 'k' = 'K'
      ∧ (Board.piece_at sq1 0).type = 'r' ∧ toupper 'r' = 'R'
      ∧ (Board.piece_at sq1 60).type = 'K'
      ∧ (Board.piece_at sq1 20).type = ' ' := by
  obtain ⟨sq1, h1, _, h3⟩ := set_position_default squares hlen
  have a4 : pieceAt sq1 4 = ⟨'k', true⟩ := (h3 0 (by decide) 4 (by decide)).trans (by decide)
  have a0 : pieceAt sq1 0 = ⟨'r', true⟩ := (h3 0 (by decide) 0 (by decide)).trans (by decide)
  have a60 : pieceAt sq1 60 = ⟨'K', false⟩ :=
    (h3 7 (by decide) 4 (by decide)).trans (by decide)
  have a20 : pieceAt sq1 20 = ⟨' ', false⟩ :=
    (h3 2 (by decide) 4 (by decide)).trans (by decide)
  refine ⟨sq1, h1, ?_, by decide, ?_, by decide, ?_, ?_⟩
  · unfold Board.piece_at; rw [a4]
  · unfold Board.piece_at; rw [a0]
  · unfold Board.piece_at; rw [a60]
  · unfold Board.piece_at; rw [a20]

/-- The default position decoded over `staleSquares`. -/
theorem set_position_stores_source_letter_witness :
    staleSquares.length = 64
      ∧ ∃ sq1, Board.set_position defaultFen staleSquares = some sq1
        ∧ (Board.piece_at sq1 4).type = 'k' ∧ toupper 'k' = 'K'
        ∧ (Board.piece_at sq1 0).type = 'r' ∧ toupper 'r' = 'R'
        ∧ (Board.piece_at sq1 60).type = 'K'
        ∧ (Board.piece_at sq1 20).type = ' ' :=
  ⟨by decide, set_position_stores_source_letter staleSquares (by decide)⟩

/-- C18. After `Board::set_position` on the default position, whatever the squares held
before, `color_at(60)` is `BLACK` although square 60 comes from the uppercase letter `'K'`,
and `color_at(4)` is `WHITE` although square 4 comes from the lowercase letter `'k'`. -/
theorem color_at_default_position (squares : List Piece) (hlen : squares.length = 64) :
    ∃ sq1, Board.set_position defaultFen squares = some sq1
      ∧ (Board.piece_at sq1 60).type = 'K' ∧ Board.color_at sq1 60 = Color.BLACK
      ∧ (Board.piece_at sq1 4).type = 'k' ∧ Board.color_at sq1 4 = Color.WHITE := by
  obtain ⟨sq1, h1, _, h3⟩ := set_position_default squares hlen
  have a4 : pieceAt sq1 4 = ⟨'k', true⟩ := (h3 0 (by decide) 4 (by decide)).trans (by decide)
  have a60 : pieceAt sq1 60 = ⟨'K', false⟩ :=
    (h3 7 (by decide) 4 (by decide)).trans (by decide)
  refine ⟨sq1, h1, ?_, ?_, ?_, ?_⟩
  · unfold Board.piece_at; rw [a60]
  · unfold Board.color_at; rw [a60]; rfl
  · unfold Board.piece_at; rw [a4]
  · unfold Board.color_at; rw [a4]; rfl

/-- The default position decoded over `staleSquares`. -/
theorem color_at_default_position_witness :
    staleSquares.length = 64
      ∧ ∃ sq1, Board.set_position defaultFen staleSquares = some sq1
        ∧ (Board.piece_at sq1 60).type = 'K' ∧ Board.color_at sq1 60 = Color.BLACK
        ∧ (Board.piece_at sq1 4).type = 'k' ∧ Board.color_at sq1 4 = Color.WHITE :=
  ⟨by decide, color_at_default_position staleSquares (by decide)⟩

/-- C19, as the code has it.  `Board::set_position` has no error result.  For every text
of at most 8 rank descriptors that expand to at most 8 squares each, with 8 of each or
fewer, it returns normally with the 64 squares: square `r * 8 + c` holds the `c`-th
expanded item of descriptor `r` where the text has one, and what it held before the call
where the text has none. -/
theorem set_position_returns_normally (fen : String) (squares : List Piece)
    (hlen : squares.length = 64)
    (hranks : (getline_ranks [] fen.toList).length ≤ 8)
    (hwidth : ∀ rank ∈ getline_ranks [] fen.toList, (expand_rank rank).length ≤ 8) :
    ∃ sq1, Board.set_position fen squares = some sq1 ∧ sq1.length = 64
      ∧ ∀ r c : Nat, c < 8 →
          Board.piece_at sq1 (r * 8 + c)
            = if r < (getline_ranks [] fen.toList).length
                  ∧ c < (expand_rank ((getline_ranks [] fen.toList).getD r [])).length
              then pieceAt (expand_rank ((getline_ranks [] fen.toList).getD r [])) c
              else Board.piece_at squares (r * 8 + c) :=
  set_position_squares fen squares hlen hranks hwidth

/-- The text `8/8/8/8/8/8/8/7`, one square short in its last rank, over `staleSquares`. -/
theorem set_position_returns_normally_witness :
    (staleSquares.length = 64
        ∧ (getline_ranks [] shortFen.toList).length ≤ 8
        ∧ ∀ rank ∈ getline_ranks [] shortFen.toList, (expand_rank rank).length ≤ 8)
      ∧ ∃ sq1, Board.set_position shortFen staleSquares = some sq1
        ∧ sq1.length = 64
        ∧ ∀ r c : Nat, c < 8 →
            Board.piece_at sq1 (r * 8 + c)
              = if r < (getline_ranks [] shortFen.toList).length
                    ∧ c < (expand_rank
                        ((getline_ranks [] shortFen.toList).getD r [])).length
                then pieceAt (expand_rank
                  ((getline_ranks [] shortFen.toList).getD r [])) c
                else Board.piece_at staleSquares (r * 8 + c) :=
  ⟨⟨by decide, by decide, by decide⟩,
    set_position_returns_normally shortFen staleSquares (by decide) (by decide)
      (by decide)⟩

/-- C19, as stated, fails: the text `8/8/8/8/8/8/8/7`, whose last rank expands to 7
squares, is accepted and square 63 keeps what it held before; the text `8/8` of two ranks
is accepted and square 16 keeps what it held before; the text `9`, whose rank expands to 9
squares, is accepted and its ninth square is written on square 8 of the next row. -/
theorem set_position_accepts_malformed :
    (expand_rank ['7']).length = 7
      ∧ (Board.set_position shortFen staleSquares).map (fun sq => pieceAt sq 63)
          = some ⟨'?', true⟩
      ∧ (getline_ranks [] twoRankFen.toList).length = 2
      ∧ (Board.set_position twoRankFen staleSquares).map (fun sq => pieceAt sq 16)
          = some ⟨'?', true⟩
      ∧ (expand_rank ['9']).length = 9
      ∧ (Board.set_position wideFen staleSquares).map (fun sq => pieceAt sq 8)
          = some ⟨' ', false⟩ := by
  decide

/-! ## Destinations and reads stay on the board -/

theorem toupper_eq_P (c : Char) (h : toupper c = 'P') : c = 'P' ∨ c = 'p' := by
  revert c
  apply char_induction
  · decide
  · decide
  · intro c _ _ htu _ h
    unfold toupper at h
    rw [htu] at h
    exact Or.inl h

theorem mem_step_moves (board : List Char) (piece : Char) (s d : Int) (moves : List Int)
    (hd : d ∈ step_moves board piece s moves) :
    is_within_board d = true
      ∧ (sqAt board d = ' ' ∨ isupper (sqAt board d) ≠ isupper piece) := by
  unfold step_moves at hd
  rw [List.mem_filter] at hd
  have h := hd.2
  simp only [Bool.and_eq_true, Bool.or_eq_true, beq_iff_eq, bne_iff_ne, ne_eq] at h
  exact h

theorem mem_slide (board : List Char) (piece : Char) (move : Int) (fuel : Nat) (sq d : Int)
    (hd : d ∈ slide board piece move fuel sq) :
    is_within_board d = true
      ∧ (sqAt board d = ' ' ∨ isupper (sqAt board d) ≠ isupper piece) := by
  induction fuel generalizing sq with
  | zero => simp [slide] at hd
  | succ fuel ih =>
    rw [slide] at hd
    split at hd
    · rename_i hc
      simp only [Bool.and_eq_true, beq_iff_eq] at hc
      rcases List.mem_cons.mp hd with h | h
      · rw [h]; exact ⟨hc.1, Or.inl hc.2⟩
      · exact ih _ h
    · split at hd
      · rename_i hc
        simp only [Bool.and_eq_true, bne_iff_ne, ne_eq] at hc
        rw [List.mem_singleton] at hd
        rw [hd]; exact ⟨hc.1, Or.inr hc.2⟩
      · simp at hd

theorem mem_slide_moves (board : List Char) (piece : Char) (s d : Int) (moves : List Int)
    (hd : d ∈ slide_moves board piece s moves) :
    is_within_board d = true
      ∧ (sqAt board d = ' ' ∨ isupper (sqAt board d) ≠ isupper piece) := by
  unfold slide_moves at hd
  rw [List.mem_flatMap] at hd
  obtain ⟨m, _, hm⟩ := hd
  exact mem_slide board piece m 64 _ d hm

theorem mem_pawn_moves (board : List Char) (piece : Char) (s d : Int) (hs : 0 ≤ s)
    (hp : piece = 'P' ∨ piece = 'p') (hd : d ∈ pawn_moves board piece s) :
    is_within_board d = true
      ∧ (sqAt board d = ' ' ∨ isupper (sqAt board d) ≠ isupper piece) := by
  rcases hp with hp | hp
  · subst hp
    have hu : isupper 'P' = true := by decide
    rw [hu]
    rcases (mem_pawn_moves_white board s d hs).mp hd with
      ⟨h, h1, h2⟩ | ⟨h, h1, _, h3, h4⟩ | ⟨h, h1, _, h3⟩ | ⟨h, h1, _, h3⟩
    · rw [h]; exact ⟨h1, Or.inl h2⟩
    · rw [h]
      rw [is_within_board_iff] at h1 ⊢
      exact ⟨⟨by omega, by omega⟩, Or.inl h4⟩
    · rw [h]; exact ⟨h1, Or.inr (by simp [h3])⟩
    · rw [h]; exact ⟨h1, Or.inr (by simp [h3])⟩
  · subst hp
    have hu : isupper 'p' = false := by decide
    rw [hu]
    rcases (mem_pawn_moves_black board s d hs).mp hd with
      ⟨h, h1, h2⟩ | ⟨h, h1, _, h3, h4⟩ | ⟨h, h1, _, h3⟩ | ⟨h, h1, _, h3⟩
    · rw [h]; exact ⟨h1, Or.inl h2⟩
    · rw [h]
      rw [is_within_board_iff] at h1 ⊢
      exact ⟨⟨by omega, by omega⟩, Or.inl h4⟩
    · rw [h]; exact ⟨h1, Or.inr (by simp [h3])⟩
    · rw [h]; exact ⟨h1, Or.inr (by simp [h3])⟩

/-- Every destination of `generate_moves` is within the board and is empty or holds a
character of the other case than the piece that moves. -/
theorem mem_generate_moves (board : List Char) (s d : Int) (hs : 0 ≤ s)
    (hd : d ∈ generate_moves board s) :
    is_within_board d = true
      ∧ (sqAt board d = ' ' ∨ isupper (sqAt board d) ≠ isupper (sqAt board s)) := by
  unfold generate_moves at hd
  simp only [] at hd
  split_ifs at hd with h1 h2 h3 h4 h5 h6
  · exact mem_step_moves board _ s d _ hd
  · exact mem_step_moves board _ s d _ hd
  · exact mem_slide_moves board _ s d _ hd
  · exact mem_slide_moves board _ s d _ hd
  · exact mem_slide_moves board _ s d _ hd
  · exact mem_pawn_moves board _ s d hs (toupper_eq_P _ h6) hd
  · simp at hd

/-- A square with destinations is not empty. -/
theorem generate_moves_piece (board : List Char) (s d : Int)
    (hd : d ∈ generate_moves board s) : sqAt board s ≠ ' ' := by
  intro he
  unfold generate_moves at hd
  rw [he] at hd
  revert hd
  simp only [show toupper ' ' = ' ' by decide, show (' ' : Char) ≠ 'N' by decide,
    show (' ' : Char) ≠ 'K' by decide, show (' ' : Char) ≠ 'R' by decide,
    show (' ' : Char) ≠ 'B' by decide, show (' ' : Char) ≠ 'Q' by decide,
    show (' ' : Char) ≠ 'P' by decide, if_false]
  simp
theorem mem_guarded_read (index r : Int) (hr : r ∈ guarded_read index) :
    is_within_board r = true := by
  unfold guarded_read at hr
  split at hr
  · rename_i h
    rw [List.mem_singleton] at hr
    rw [hr]; exact h
  · simp at hr

theorem mem_slide_reads (board : List Char) (move : Int) (fuel : Nat) (sq r : Int)
    (hr : r ∈ slide_reads board move fuel sq) : is_within_board r = true := by
  induction fuel generalizing sq with
  | zero => simp [slide_reads] at hr
  | succ fuel ih =>
    rw [slide_reads] at hr
    split at hr
    · rename_i hc
      simp only [Bool.and_eq_true, beq_iff_eq] at hc
      rcases List.mem_cons.mp hr with h | h
      · rw [h]; exact hc.1
      · exact ih _ h
    · exact mem_guarded_read _ _ hr

theorem mem_pawn_reads (board : List Char) (piece : Char) (s r : Int)
    (hs : 0 ≤ s ∧ s < 64) (hr : r ∈ pawn_reads board piece s) :
    is_within_board r = true := by
  have e5 : Int.tdiv s BOARD_SIZE = s / 8 := Int.tdiv_eq_ediv hs.1 (by decide)
  unfold pawn_reads at hr
  rw [List.mem_append, List.mem_append, List.mem_append, e5] at hr
  rcases hr with ((h | h) | h) | h
  · exact mem_guarded_read _ _ h
  · cases hu : isupper piece
    · simp only [hu, Bool.false_eq_true, if_false] at h
      split at h
      · rename_i hc
        simp only [Bool.and_eq_true, beq_iff_eq] at hc
        rw [List.mem_singleton] at h
        have hrow := hc.2
        rw [h, is_within_board_iff]
        unfold BOARD_SIZE
        omega
      · simp at h
    · simp only [hu, if_true] at h
      split at h
      · rename_i hc
        simp only [Bool.and_eq_true, beq_iff_eq] at hc
        rw [List.mem_singleton] at h
        have hrow := hc.2
        rw [h, is_within_board_iff]
        unfold BOARD_SIZE
        omega
      · simp at h
  · exact mem_guarded_read _ _ h
  · exact mem_guarded_read _ _ h

/-- Every read of `generate_moves` at a square of the board is within the board. -/
theorem mem_generate_moves_reads (board : List Char) (s r : Int) (hs : 0 ≤ s ∧ s < 64)
    (hr : r ∈ generate_moves_reads board s) : is_within_board r = true := by
  unfold generate_moves_reads at hr
  simp only [] at hr
  rcases List.mem_cons.mp hr with h | h
  · rw [h, is_within_board_iff]; exact hs
  · split_ifs at h with h1 h2 h3 h4 h5 h6
    · obtain ⟨m, _, hm⟩ := List.mem_flatMap.mp h
      exact mem_guarded_read _ _ hm
    · obtain ⟨m, _, hm⟩ := List.mem_flatMap.mp h
      exact mem_guarded_read _ _ hm
    · obtain ⟨m, _, hm⟩ := List.mem_flatMap.mp h
      exact mem_slide_reads _ _ _ _ _ hm
    · obtain ⟨m, _, hm⟩ := List.mem_flatMap.mp h
      exact mem_slide_reads _ _ _ _ _ hm
    · obtain ⟨m, _, hm⟩ := List.mem_flatMap.mp h
      exact mem_slide_reads _ _ _ _ _ hm
    · exact mem_pawn_reads board _ s r hs h
    · simp at h

/-- C24. On a board of 64 squares, for every square `s` in 0..63: every destination `d` of
`generate_moves(board, s)` is an index in 0..63 other than `s`, and `board[d]` is empty or
holds a character of the other case than the piece on `s`; every index at which
`generate_moves` reads the board, the pawn's `board[move_two]` included, is inside the
vector; and so are both indices of a later `simulate_move(board, s, d)`. -/
theorem generate_moves_in_bounds (board : List Char) (s : Int)
    (hlen : board.length = 64) (hs : 0 ≤ s ∧ s < 64) :
    (∀ d ∈ generate_moves board s,
        (0 ≤ d ∧ d ≤ 63) ∧ d ≠ s
          ∧ (sqAt board d = ' ' ∨ isupper (sqAt board d) ≠ isupper (sqAt board s)))
      ∧ (∀ r ∈ generate_moves_reads board s, 0 ≤ r ∧ r < board.length)
      ∧ (∀ d ∈ generate_moves board s,
          (0 ≤ s ∧ s < board.length) ∧ (0 ≤ d ∧ d < board.length)) := by
  have key : ∀ d ∈ generate_moves board s,
      (0 ≤ d ∧ d < 64) ∧ d ≠ s
        ∧ (sqAt board d = ' ' ∨ isupper (sqAt board d) ≠ isupper (sqAt board s)) := by
    intro d hd
    obtain ⟨h1, h2⟩ := mem_generate_moves board s d hs.1 hd
    have hne := generate_moves_piece board s d hd
    refine ⟨(is_within_board_iff d).mp h1, ?_, h2⟩
    intro e
    rw [e] at h2
    rcases h2 with h | h
    · exact hne h
    · exact h rfl
  rw [hlen]
  refine ⟨?_, ?_, ?_⟩
  · intro d hd
    obtain ⟨h1, h2, h3⟩ := key d hd
    exact ⟨⟨h1.1, by omega⟩, h2, h3⟩
  · intro r hr
    have h := (is_within_board_iff r).mp (mem_generate_moves_reads board s r hs hr)
    exact ⟨h.1, by push_cast; exact h.2⟩
  · intro d hd
    obtain ⟨h1, _, _⟩ := key d hd
    exact ⟨⟨hs.1, by push_cast; exact hs.2⟩, ⟨h1.1, by push_cast; exact h1.2⟩⟩

/-- The white knight on square 57 of the starting position. -/
theorem generate_moves_in_bounds_witness :
    (startBoard.length = 64 ∧ ((0 : Int) ≤ 57 ∧ (57 : Int) < 64))
      ∧ (∀ d ∈ generate_moves startBoard 57,
          (0 ≤ d ∧ d ≤ 63) ∧ d ≠ 57
            ∧ (sqAt startBoard d = ' '
              ∨ isupper (sqAt startBoard d) ≠ isupper (sqAt startBoard 57)))
      ∧ ∀ r ∈ generate_moves_reads startBoard 57, 0 ≤ r ∧ r < startBoard.length :=
  have h := generate_moves_in_bounds startBoard 57 (by decide) (by decide)
  ⟨⟨by decide, by decide⟩, h.1, h.2.1⟩

/-! ## The legality filter as coded -/

/-- C22. With no attacker and two defenders the unsigned difference
`attackers.size() - defenders.size()` is `2 ^ 64 - 2`, not -2; for no pair of lists is it
negative, and it is the signed difference only when the attackers are at least as many
as the defenders. -/
theorem support_difference_wraps :
    support_difference [] [10, 12] = 18446744073709551614
      ∧ (∀ attackers defenders : List Int, 0 ≤ support_difference attackers defenders)
      ∧ (∀ attackers defenders : List Int, defenders.length ≤ attackers.length →
          attackers.length < 2 ^ 64 →
          support_difference attackers defenders
            = (attackers.length : Int) - (defenders.length : Int)) := by
  refine ⟨by decide, ?_, ?_⟩
  · intro a d
    unfold support_difference
    exact Int.emod_nonneg _ (by norm_num)
  · intro a d h1 h2
    unfold support_difference
    apply Int.emod_eq_of_lt
    · omega
    · have : ((a.length : Nat) : Int) < 2 ^ 64 := by exact_mod_cast h2
      omega

/-- C23, as the code has it.  For every pair of totals `(w, b)` the factor returned is
`w / m - b / m` with `m = std::max(w, b)`, the larger total by signed comparison, and it is
the plain difference `w - b` exactly when that maximum is zero; for totals that are both
non-negative this is the spec's normalisation by the total of larger magnitude. -/
theorem normalize_coordination_spec (w b : ℚ) :
    (max w b ≠ 0 → normalize_coordination w b = w / max w b - b / max w b)
      ∧ (max w b = 0 → normalize_coordination w b = w - b)
      ∧ (0 ≤ w → 0 ≤ b → normalize_coordination w b = spec_normalize w b) := by
  refine ⟨?_, ?_, ?_⟩
  · intro h
    simp only [normalize_coordination, if_pos h]
  · intro h
    simp only [normalize_coordination, h, ne_eq, not_true_eq_false, if_false]
  · intro hw hb
    have hm : larger_magnitude w b = max w b := by
      unfold larger_magnitude
      rw [abs_of_nonneg hw, abs_of_nonneg hb]
      by_cases h : b ≤ w
      · rw [if_pos h, max_eq_left h]
      · rw [if_neg h, max_eq_right (le_of_lt (not_le.mp h))]
    unfold spec_normalize normalize_coordination
    rw [hm]
    by_cases h : max w b = 0
    · simp [h]
    · simp [h]

/-- C23, as stated, fails: the totals `w = -3`, `b = -1` are divided by -1 and give 2,
where division by the total of magnitude 3 gives 2/3; the totals `w = 0`, `b = -4` are
left unnormalised and give 4, where division by the total of magnitude 4 gives -1. -/
theorem normalize_coordination_not_magnitude :
    normalize_coordination (-3) (-1) = 2 ∧ spec_normalize (-3) (-1) = 2 / 3
      ∧ normalize_coordination 0 (-4) = 4 ∧ spec_normalize 0 (-4) = -1 := by
  refine ⟨?_, ?_, ?_, ?_⟩
  · have h : max (-3 : ℚ) (-1) = -1 := max_eq_right (by norm_num)
    simp only [normalize_coordination, h]
    norm_num
  · have h : larger_magnitude (-3) (-1) = -3 := by
      unfold larger_magnitude
      rw [if_pos (by norm_num [abs_of_neg])]
    simp only [spec_normalize, h]
    norm_num
  · have h : max (0 : ℚ) (-4) = 0 := max_eq_left (by norm_num)
    simp only [normalize_coordination, h]
    norm_num
  · have h : larger_magnitude 0 (-4) = -4 := by
      unfold larger_magnitude
      rw [if_neg (by norm_num [abs_of_neg])]
    simp only [spec_normalize, h]
    norm_num

/-! ## `Board::attackers` -/

/-- The switch of `Board::attackers` with the C++ `/` and `%` replaced by `Int`'s, for
squares within the board. -/
theorem attack_push_mem (p : Piece) (i q x : Int) (hi : 0 ≤ i ∧ i < 64)
    (hq : 0 ≤ q ∧ q < 64) :
    x ∈ Board.attack_push p i q ↔
      x = i ∧
        ((p.type = 'P' ∧ p.color = false
            ∧ ((i - 9 ≥ 0 ∧ (i - 9) % 8 ≠ 7 ∧ i - 9 = q)
              ∨ (i - 7 ≥ 0 ∧ (i - 7) % 8 ≠ 0 ∧ i - 7 = q)))
          ∨ (p.type = 'P' ∧ p.color = true
            ∧ ((i + 9 < 64 ∧ (i + 9) % 8 ≠ 0 ∧ i + 9 = q)
              ∨ (i + 7 < 64 ∧ (i + 7) % 8 ≠ 7 ∧ i + 7 = q)))
          ∨ (p.type = 'N'
            ∧ (i - 17 = q ∨ i - 15 = q ∨ i - 10 = q ∨ i - 6 = q
              ∨ i + 6 = q ∨ i + 10 = q ∨ i + 15 = q ∨ i + 17 = q))
          ∨ (p.type = 'B'
            ∧ (q % 8 - i % 8 = q / 8 - i / 8 ∨ q % 8 - i % 8 = i / 8 - q / 8))
          ∨ (p.type = 'R' ∧ (q / 8 = i / 8 ∨ q % 8 = i % 8))
          ∨ (p.type = 'Q'
            ∧ ((q / 8 = i / 8 ∨ q % 8 = i % 8)
              ∨ q % 8 - i % 8 = q / 8 - i / 8 ∨ q % 8 - i % 8 = i / 8 - q / 8))
          ∨ (p.type = 'K' ∧ |q / 8 - i / 8| ≤ 1 ∧ |q % 8 - i % 8| ≤ 1)) := by
  have e1 : Int.tmod q 8 = q % 8 := Int.tmod_eq_emod hq.1 (by decide)
  have e2 : Int.tmod i 8 = i % 8 := Int.tmod_eq_emod hi.1 (by decide)
  have e3 : Int.tdiv q 8 = q / 8 := Int.tdiv_eq_ediv hq.1 (by decide)
  have e4 : Int.tdiv i 8 = i / 8 := Int.tdiv_eq_ediv hi.1 (by decide)
  have e5 : Int.tmod (i + 9) 8 = (i + 9) % 8 := Int.tmod_eq_emod (by omega) (by decide)
  have e6 : Int.tmod (i + 7) 8 = (i + 7) % 8 := Int.tmod_eq_emod (by omega) (by decide)
  have e7 : i - 9 ≥ 0 → Int.tmod (i - 9) 8 = (i - 9) % 8 :=
    fun h => Int.tmod_eq_emod h (by decide)
  have e8 : i - 7 ≥ 0 → Int.tmod (i - 7) 8 = (i - 7) % 8 :=
    fun h => Int.tmod_eq_emod h (by decide)
  have hP : ('P' : Char) ≠ 'N' ∧ ('P' : Char) ≠ 'B' ∧ ('P' : Char) ≠ 'R'
      ∧ ('P' : Char) ≠ 'Q' ∧ ('P' : Char) ≠ 'K' := by decide
  unfold Board.attack_push
  rw [e1, e2, e3, e4, e5, e6]
  have hw : Color.WHITE.toBool = false := rfl
  rw [hw]
  by_cases h1 : p.type = 'P'
  · rw [if_pos h1]
    cases hc : p.color
    · simp only [if_true, List.mem_append]
      constructor
      · rintro (h | h)
        · split at h
          · rename_i hcond
            rw [e7 hcond.1] at hcond
            exact ⟨List.mem_singleton.mp h, Or.inl ⟨h1, trivial, Or.inl hcond⟩⟩
          · simp at h
        · split at h
          · rename_i hcond
            rw [e8 hcond.1] at hcond
            exact ⟨List.mem_singleton.mp h, Or.inl ⟨h1, trivial, Or.inr hcond⟩⟩
          · simp at h
      · rintro ⟨hx, hrest⟩
        rcases hrest with ⟨_, _, h⟩ | ⟨_, h, _⟩ | ⟨h, _⟩ | ⟨h, _⟩ | ⟨h, _⟩ | ⟨h, _⟩ | ⟨h, _⟩
        · rcases h with h | h
          · left
            rw [← e7 h.1] at h
            rw [if_pos h]; exact List.mem_singleton.mpr hx
          · right
            rw [← e8 h.1] at h
            rw [if_pos h]; exact List.mem_singleton.mpr hx
        · exact absurd h (by simp)
        · rw [h1] at h; exact absurd h hP.1
        · rw [h1] at h; exact absurd h hP.2.1
        · rw [h1] at h; exact absurd h hP.2.2.1
        · rw [h1] at h; exact absurd h hP.2.2.2.1
        · rw [h1] at h; exact absurd h hP.2.2.2.2
    · simp only [Bool.true_eq_false, if_false, List.mem_append]
      constructor
      · rintro (h | h)
        · split at h
          · rename_i hcond
            exact ⟨List.mem_singleton.mp h, Or.inr (Or.inl ⟨h1, trivial, Or.inl hcond⟩)⟩
          · simp at h
        · split at h
          · rename_i hcond
            exact ⟨List.mem_singleton.mp h, Or.inr (Or.inl ⟨h1, trivial, Or.inr hcond⟩)⟩
          · simp at h
      · rintro ⟨hx, hrest⟩
        rcases hrest with ⟨_, h, _⟩ | ⟨_, _, h⟩ | ⟨h, _⟩ | ⟨h, _⟩ | ⟨h, _⟩ | ⟨h, _⟩ | ⟨h, _⟩
        · exact absurd h (by simp)
        · rcases h with h | h
          · left
            rw [if_pos h]; exact List.mem_singleton.mpr hx
          · right
            rw [if_pos h]; exact List.mem_singleton.mpr hx
        · rw [h1] at h; exact absurd h hP.1
        · rw [h1] at h; exact absurd h hP.2.1
        · rw [h1] at h; exact absurd h hP.2.2.1
        · rw [h1] at h; exact absurd h hP.2.2.2.1
        · rw [h1] at h; exact absurd h hP.2.2.2.2
  · rw [if_neg h1]
    by_cases h2 : p.type = 'N'
    · have hN : ('N' : Char) ≠ 'B' ∧ ('N' : Char) ≠ 'R' ∧ ('N' : Char) ≠ 'Q'
          ∧ ('N' : Char) ≠ 'K' := by decide
      rw [if_pos h2]
      simp only [h2, hN.1, hN.2.1, hN.2.2.1, hN.2.2.2, show ('N' : Char) ≠ 'P' by decide,
        false_and, true_and, false_or, or_false]
      split <;> simp_all
    · rw [if_neg h2]
      by_cases h3 : p.type = 'B'
      · rw [if_pos h3]
        simp only [h3, show ('B' : Char) ≠ 'P' by decide, show ('B' : Char) ≠ 'N' by decide,
          show ('B' : Char) ≠ 'R' by decide, show ('B' : Char) ≠ 'Q' by decide,
          show ('B' : Char) ≠ 'K' by decide, false_and, true_and, false_or, or_false]
        split <;> simp_all
      · rw [if_neg h3]
        by_cases h4 : p.type = 'R'
        · rw [if_pos h4]
          simp only [h4, show ('R' : Char) ≠ 'P' by decide,
            show ('R' : Char) ≠ 'N' by decide, show ('R' : Char) ≠ 'B' by decide,
            show ('R' : Char) ≠ 'Q' by decide, show ('R' : Char) ≠ 'K' by decide,
            false_and, true_and, false_or, or_false]
          split <;> simp_all
        · rw [if_neg h4]
          by_cases h5 : p.type = 'Q'
          · rw [if_pos h5]
            simp only [h5, show ('Q' : Char) ≠ 'P' by decide,
              show ('Q' : Char) ≠ 'N' by decide, show ('Q' : Char) ≠ 'B' by decide,
              show ('Q' : Char) ≠ 'R' by decide, show ('Q' : Char) ≠ 'K' by decide,
              false_and, true_and, false_or, or_false]
            split <;> simp_all
          · rw [if_neg h5]
            by_cases h6 : p.type = 'K'
            · rw [if_pos h6]
              simp only [h6, show ('K' : Char) ≠ 'P' by decide,
                show ('K' : Char) ≠ 'N' by decide, show ('K' : Char) ≠ 'B' by decide,
                show ('K' : Char) ≠ 'R' by decide, show ('K' : Char) ≠ 'Q' by decide,
                false_and, true_and, false_or, or_false]
              split <;> simp_all
            · rw [if_neg h6]
              simp [h1, h2, h3, h4, h5, h6]
theorem abs_eq_one_iff (a : Int) : |a| = 1 ↔ a = 1 ∨ a = -1 := abs_eq (by norm_num)

theorem abs_eq_two_iff (a : Int) : |a| = 2 ↔ a = 2 ∨ a = -2 := abs_eq (by norm_num)

/-- Whatever the switch pushes is the square `i` itself, for a piece whose `type` is one
of the six case labels; unless that is `'N'`, the target lies in the piece's geometric
pattern. -/
theorem attack_push_sound (p : Piece) (i q x : Int) (hi : 0 ≤ i ∧ i < 64)
    (hq : 0 ≤ q ∧ q < 64) (hx : x ∈ Board.attack_push p i q) :
    x = i ∧ p.type ∈ ['P', 'N', 'B', 'R', 'Q', 'K']
      ∧ (p.type ≠ 'N' → attack_geometry p i q) := by
  obtain ⟨hxi, h⟩ := (attack_push_mem p i q x hi hq).mp hx
  refine ⟨hxi, ?_⟩
  have hw : Color.WHITE.toBool = false := rfl
  unfold attack_geometry rowOf colOf
  rw [hw]
  simp only [abs_eq_one_iff, abs_eq_two_iff, abs_le, abs_eq_abs, List.mem_cons,
    List.mem_singleton, List.mem_nil_iff, or_false]
  rcases h with ⟨ht, hc, h⟩ | ⟨ht, hc, h⟩ | ⟨ht, h⟩ | ⟨ht, h⟩ | ⟨ht, h⟩ | ⟨ht, h⟩ | ⟨ht, h⟩
  · simp only [ht, hc, show toupper 'P' = 'P' by decide, if_true,
      show ('P' : Char) ≠ 'N' by decide, ne_eq, not_false_eq_true,
      true_implies, true_or, true_and]
    omega
  · simp only [ht, hc, show toupper 'P' = 'P' by decide, if_true, Bool.true_eq_false,
      if_false, show ('P' : Char) ≠ 'N' by decide, ne_eq, not_false_eq_true,
      true_implies, true_or, true_and]
    omega
  · simp only [ht, ne_eq, not_true_eq_false, false_implies, true_or, or_true, and_true]
  · simp only [ht, show toupper 'B' = 'B' by decide, show ('B' : Char) ≠ 'P' by decide,
      show ('B' : Char) ≠ 'N' by decide, if_false, if_true, ne_eq, not_false_eq_true,
      true_implies, true_or, or_true, true_and]
    omega
  · simp only [ht, show toupper 'R' = 'R' by decide, show ('R' : Char) ≠ 'P' by decide,
      show ('R' : Char) ≠ 'N' by decide, show ('R' : Char) ≠ 'B' by decide, if_false,
      if_true, ne_eq, not_false_eq_true, true_implies, true_or, or_true, true_and]
    omega
  · simp only [ht, show toupper 'Q' = 'Q' by decide, show ('Q' : Char) ≠ 'P' by decide,
      show ('Q' : Char) ≠ 'N' by decide, show ('Q' : Char) ≠ 'B' by decide,
      show ('Q' : Char) ≠ 'R' by decide, if_false, if_true, ne_eq, not_false_eq_true,
      true_implies, true_or, or_true, true_and]
    omega
  · simp only [ht, show toupper 'K' = 'K' by decide, show ('K' : Char) ≠ 'P' by decide,
      show ('K' : Char) ≠ 'N' by decide, show ('K' : Char) ≠ 'B' by decide,
      show ('K' : Char) ≠ 'R' by decide, show ('K' : Char) ≠ 'Q' by decide, if_false,
      if_true, ne_eq, not_false_eq_true, true_implies, true_or, or_true, true_and]
    simp only [abs_le] at h
    omega

/-- A piece whose `type` is one of the six case labels and whose geometric pattern
contains the square `q`, other than its own square, is pushed by the switch, whatever
stands between the two squares. -/
theorem attack_push_complete (p : Piece) (i q : Int) (hi : 0 ≤ i ∧ i < 64)
    (hq : 0 ≤ q ∧ q < 64) (ht : p.type ∈ ['P', 'N', 'B', 'R', 'Q', 'K'])
    (hg : attack_geometry p i q) :
    i ∈ Board.attack_push p i q := by
  rw [attack_push_mem p i q i hi hq]
  refine ⟨rfl, ?_⟩
  have hw : Color.WHITE.toBool = false := rfl
  unfold attack_geometry rowOf colOf at hg
  rw [hw] at hg
  simp only [List.mem_cons, List.mem_singleton, List.mem_nil_iff, or_false] at ht
  simp only [abs_eq_one_iff, abs_eq_two_iff, abs_le, abs_eq_abs] at hg ⊢
  rcases ht with ht | ht | ht | ht | ht | ht
  · simp only [ht, show toupper 'P' = 'P' by decide, if_true] at hg
    by_cases hc : p.color = false
    · simp only [hc, if_true] at hg
      exact Or.inl ⟨ht, hc, by omega⟩
    · have hc2 : p.color = true := by simpa using hc
      simp only [hc2, Bool.true_eq_false, if_false] at hg
      exact Or.inr (Or.inl ⟨ht, hc2, by omega⟩)
  · simp only [ht, show toupper 'N' = 'N' by decide, show ('N' : Char) ≠ 'P' by decide,
      if_false, if_true] at hg
    exact Or.inr (Or.inr (Or.inl ⟨ht, by omega⟩))
  · simp only [ht, show toupper 'B' = 'B' by decide, show ('B' : Char) ≠ 'P' by decide,
      show ('B' : Char) ≠ 'N' by decide, if_false, if_true] at hg
    exact Or.inr (Or.inr (Or.inr (Or.inl ⟨ht, by omega⟩)))
  · simp only [ht, show toupper 'R' = 'R' by decide, show ('R' : Char) ≠ 'P' by decide,
      show ('R' : Char) ≠ 'N' by decide, show ('R' : Char) ≠ 'B' by decide, if_false,
      if_true] at hg
    exact Or.inr (Or.inr (Or.inr (Or.inr (Or.inl ⟨ht, by omega⟩))))
  · simp only [ht, show toupper 'Q' = 'Q' by decide, show ('Q' : Char) ≠ 'P' by decide,
      show ('Q' : Char) ≠ 'N' by decide, show ('Q' : Char) ≠ 'B' by decide,
      show ('Q' : Char) ≠ 'R' by decide, if_false, if_true] at hg
    exact Or.inr (Or.inr (Or.inr (Or.inr (Or.inr (Or.inl ⟨ht, by omega⟩)))))
  · simp only [ht, show toupper 'K' = 'K' by decide, show ('K' : Char) ≠ 'P' by decide,
      show ('K' : Char) ≠ 'N' by decide, show ('K' : Char) ≠ 'B' by decide,
      show ('K' : Char) ≠ 'R' by decide, show ('K' : Char) ≠ 'Q' by decide, if_false,
      if_true] at hg
    exact Or.inr (Or.inr (Or.inr (Or.inr (Or.inr (Or.inr ⟨ht, by omega⟩)))))

theorem attack_push_nodup (p : Piece) (i q : Int) : (Board.attack_push p i q).Nodup := by
  unfold Board.attack_push
  split_ifs <;>
    first
      | exact List.nodup_nil
      | exact List.nodup_singleton _
      | (exfalso; omega)

theorem attack_push_eq (p : Piece) (i q x : Int) (hx : x ∈ Board.attack_push p i q) :
    x = i := by
  unfold Board.attack_push at hx
  split_ifs at hx <;> simp at hx <;> exact hx

theorem attackers_at_mem (squares : List Piece) (color : Bool) (q : Int) (i : Nat) (x : Int)
    (hx : x ∈ Board.attackers_at squares color q i) :
    ((pieceAt squares i).type ≠ ' ' ∧ (pieceAt squares i).color ≠ color)
      ∧ x ∈ Board.attack_push (pieceAt squares i) i q := by
  unfold Board.attackers_at at hx
  split at hx
  · rename_i h
    exact ⟨h, hx⟩
  · simp at hx

/-- C21, as the code has it.  For every `Board`, `bool` `color` and square `q` in 0..63,
`Board::attackers(color, q)` lists no square twice; every square it lists holds a piece
whose `type` is one of the six uppercase letters `'P'`, `'N'`, `'B'`, `'R'`, `'Q'`, `'K'`
and whose `color` field differs from `color`, and unless that piece is a knight `q` lies
in its geometric pattern, occupied squares in between disregarded; and it lists every
square other than `q` that holds a piece with such a `type` and `color` field and with `q`
in its geometric pattern, the knight's L-shaped step included, whatever stands in
between. -/
theorem attackers_spec (squares : List Piece) (color : Bool) (q : Int)
    (_hlen : squares.length = 64) (hq : 0 ≤ q ∧ q < 64) :
    (Board.attackers squares color q).Nodup
      ∧ (∀ x ∈ Board.attackers squares color q, ∃ i : Nat, x = i ∧ i < 64
          ∧ (pieceAt squares i).type ∈ ['P', 'N', 'B', 'R', 'Q', 'K']
          ∧ (pieceAt squares i).color ≠ color
          ∧ ((pieceAt squares i).type ≠ 'N' → attack_geometry (pieceAt squares i) i q))
      ∧ (∀ i : Nat, i < 64 → (pieceAt squares i).type ∈ ['P', 'N', 'B', 'R', 'Q', 'K'] →
          (pieceAt squares i).color ≠ color → q ≠ i →
          attack_geometry (pieceAt squares i) i q →
          (i : Int) ∈ Board.attackers squares color q) := by
  refine ⟨?_, ?_, ?_⟩
  · unfold Board.attackers
    rw [List.nodup_flatMap]
    constructor
    · intro i _
      unfold Board.attackers_at
      split
      · exact attack_push_nodup _ _ _
      · exact List.nodup_nil
    · apply (List.pairwise_lt_range 64).imp
      intro a b hab
      simp only [Function.onFun]
      intro x hxa hxb
      have e1 := attack_push_eq _ _ _ _ (attackers_at_mem squares color q a x hxa).2
      have e2 := attack_push_eq _ _ _ _ (attackers_at_mem squares color q b x hxb).2
      omega
  · intro x hx
    unfold Board.attackers at hx
    obtain ⟨i, hi, hxi⟩ := List.mem_flatMap.mp hx
    rw [List.mem_range] at hi
    obtain ⟨⟨_, hc⟩, hp⟩ := attackers_at_mem squares color q i x hxi
    obtain ⟨h1, h2, h3⟩ :=
      attack_push_sound (pieceAt squares i) i q x ⟨by omega, by omega⟩ hq hp
    exact ⟨i, h1, hi, h2, hc, h3⟩
  · intro i hi ht hc _ hg
    unfold Board.attackers
    rw [List.mem_flatMap]
    refine ⟨i, List.mem_range.mpr hi, ?_⟩
    unfold Board.attackers_at
    have hne : (pieceAt squares i).type ≠ ' ' := by
      intro e
      rw [e] at ht
      revert ht
      decide
    rw [if_pos ⟨hne, hc⟩]
    exact attack_push_complete (pieceAt squares i) i q ⟨by omega, by omega⟩ hq ht hg

/-- The default position, `true` (`BLACK` converted to `bool`) and square 43: the list has
no duplicates and contains the white pawn on square 52, whose forward diagonal holds 43. -/
theorem attackers_spec_witness :
    (defaultSquares.length = 64 ∧ ((0 : Int) ≤ 43 ∧ (43 : Int) < 64))
      ∧ (Board.attackers defaultSquares true 43).Nodup
      ∧ ((52 : Nat) : Int) ∈ Board.attackers defaultSquares true 43 :=
  have h := attackers_spec defaultSquares true 43 (by decide) (by decide)
  ⟨⟨by decide, by decide⟩, h.1,
    h.2.2 52 (by decide) (by decide) (by decide) (by decide)
      (by unfold attack_geometry rowOf colOf; decide)⟩

/-- C21, as stated, fails on the default position.  With `WHITE` as side the list for
square 43 is empty although the white pawns on 50 and 52 have 43 on a forward diagonal.
With `BLACK` as side the list for square 56 is `[56, 59, 62, 63]`, white pieces, among them
the rook on 56 itself and the knight on 62, six columns away; and the list for square 40
contains the rook on 56 although its own pawn on 48 stands in between.  The black pawns
on 11 and 13 have 20 on a forward diagonal and the black queen on 3 has 43 on its column,
with the pawn on 11 in between, and the lists for 20 are empty with either side, as is the
list for 43 with `WHITE`. -/
theorem attackers_not_by_geometry :
    defaultSquares.length = 64
      ∧ pieceAt defaultSquares 50 = ⟨'P', Color.WHITE.toBool⟩
      ∧ pieceAt defaultSquares 52 = ⟨'P', Color.WHITE.toBool⟩
      ∧ Board.attackers defaultSquares Color.WHITE.toBool 43 = []
      ∧ Board.attackers defaultSquares Color.BLACK.toBool 56 = [56, 59, 62, 63]
      ∧ (pieceAt defaultSquares 62).type = 'N'
      ∧ Board.attackers defaultSquares Color.BLACK.toBool 40 = [49, 56, 57, 58]
      ∧ (pieceAt defaultSquares 56).type = 'R' ∧ (pieceAt defaultSquares 48).type = 'P'
      ∧ pieceAt defaultSquares 11 = ⟨'p', Color.BLACK.toBool⟩
      ∧ pieceAt defaultSquares 13 = ⟨'p', Color.BLACK.toBool⟩
      ∧ pieceAt defaultSquares 3 = ⟨'q', Color.BLACK.toBool⟩
      ∧ Board.attackers defaultSquares Color.WHITE.toBool 20 = []
      ∧ Board.attackers defaultSquares Color.BLACK.toBool 20 = [] := by
  decide

end ChessBot
